import Mathlib

/-!
Verification of the payment-event integration pipeline of the storefront:
the compact cart codec, the provider form encoder, the webhook signature
verifier, the order projector and the webhook request handler.  JavaScript
strings are modelled as Lean strings (lists of characters), machine numbers
as naturals or rationals, and the ambient runtime primitives (HMAC-SHA256,
the network, configuration lookup) as explicit parameters.
-/

namespace RlsPoc

/-! ## Webhook signature verifier (timingSafeEqual, verifyStripeSignature) -/

/-- Accumulator loop of timingSafeEqual: each position XORs the two character
codes into a running bitwise OR; the second component counts the per-index
comparison steps the loop performs. -/
def tseLoop : List Char → List Char → Nat → Nat × Nat
  | a :: as, b :: bs, r =>
    let next := tseLoop as bs (r ||| (a.toNat ^^^ b.toNat))
    (next.1, next.2 + 1)
  | _, _, r => (r, 0)

/-- Model of timingSafeEqual from the webhook module: strings of different
lengths compare unequal at once; otherwise every character position is
XOR-accumulated and the final accumulator compared with zero. -/
def timingSafeEqual (a b : String) : Bool :=
  if a.length != b.length then false
  else (tseLoop a.data b.data 0).1 == 0

/-- Number of per-character comparison steps timingSafeEqual performs. -/
def tseComparisons (a b : String) : Nat :=
  if a.length != b.length then 0
  else (tseLoop a.data b.data 0).2

theorem nat_or_eq_zero (a b : Nat) : a ||| b = 0 ↔ a = 0 ∧ b = 0 := by
  constructor
  · intro h
    constructor
    · apply Nat.eq_of_testBit_eq
      intro i
      have habit := congrArg (fun n => n.testBit i) h
      simp only [Nat.testBit_or, Nat.zero_testBit, Bool.or_eq_false_iff] at habit
      simp [habit.1]
    · apply Nat.eq_of_testBit_eq
      intro i
      have hbit := congrArg (fun n => n.testBit i) h
      simp only [Nat.testBit_or, Nat.zero_testBit, Bool.or_eq_false_iff] at hbit
      simp [hbit.2]
  · rintro ⟨rfl, rfl⟩
    rfl

theorem tseLoop_snd (as bs : List Char) (r : Nat) :
    (tseLoop as bs r).2 = min as.length bs.length := by
  induction as generalizing bs r with
  | nil => cases bs <;> simp [tseLoop]
  | cons a as ih =>
    cases bs with
    | nil => simp [tseLoop]
    | cons b bs =>
      simp [tseLoop, ih]
      omega

theorem tseLoop_fst_eq_zero (as bs : List Char) (r : Nat) :
    (tseLoop as bs r).1 = 0 ↔ r = 0 ∧ ∀ p ∈ as.zip bs, p.1 = p.2 := by
  induction as generalizing bs r with
  | nil => cases bs <;> simp [tseLoop]
  | cons a as ih =>
    cases bs with
    | nil => simp [tseLoop]
    | cons b bs =>
      simp only [tseLoop, ih, nat_or_eq_zero, Nat.xor_eq_zero, List.zip_cons_cons,
        List.mem_cons]
      constructor
      · rintro ⟨⟨hr, hab⟩, hrest⟩
        refine ⟨hr, ?_⟩
        rintro p (rfl | hp)
        · have := congrArg Char.ofNat hab
          simpa [Char.ofNat_toNat] using this
        · exact hrest p hp
      · rintro ⟨hr, hall⟩
        refine ⟨⟨hr, ?_⟩, fun p hp => hall p (Or.inr hp)⟩
        have : a = b := hall (a, b) (Or.inl rfl)
        rw [this]

theorem zip_forall_eq_iff {as bs : List Char} (h : as.length = bs.length) :
    (∀ p ∈ as.zip bs, p.1 = p.2) ↔ as = bs := by
  induction as generalizing bs with
  | nil =>
    cases bs with
    | nil => simp
    | cons b bs => simp at h
  | cons a as ih =>
    cases bs with
    | nil => simp at h
    | cons b bs =>
      simp only [List.length_cons, Nat.add_right_cancel_iff] at h
      simp only [List.zip_cons_cons, List.mem_cons, List.cons.injEq]
      constructor
      · intro hall
        refine ⟨hall (a, b) (Or.inl rfl), ?_⟩
        exact (ih h).1 fun p hp => hall p (Or.inr hp)
      · rintro ⟨rfl, rfl⟩
        rintro p (rfl | hp)
        · rfl
        · exact ((ih h).2 rfl) p hp

theorem timingSafeEqual_iff (a b : String) : timingSafeEqual a b = true ↔ a = b := by
  unfold timingSafeEqual
  by_cases hlen : a.length = b.length
  · have hlen' : a.data.length = b.data.length := hlen
    have hbne : (a.length != b.length) = false := by simp [bne, hlen]
    rw [hbne]
    simp only [Bool.false_eq_true, if_false, beq_iff_eq]
    rw [tseLoop_fst_eq_zero, zip_forall_eq_iff hlen']
    constructor
    · rintro ⟨-, hdata⟩
      exact String.ext hdata
    · rintro rfl
      exact ⟨rfl, rfl⟩
  · have hbne : (a.length != b.length) = true := by
      simpa [bne] using hlen
    rw [hbne]
    simp only [if_true]
    constructor
    · intro h
      exact absurd h (by simp)
    · rintro rfl
      exact absurd rfl hlen

/-- Lowercase hexadecimal digit character for a value below 16. -/
def hexDigitChar (n : Nat) : Char :=
  if n < 10 then Char.ofNat (48 + n) else Char.ofNat (87 + n)

/-- Fuelled digit loop of hexRev; the fuel always suffices at call sites. -/
def hexRevGo (fuel n : Nat) : List Char :=
  match fuel with
  | 0 => []
  | fuel + 1 =>
    if n < 16 then [hexDigitChar n]
    else hexDigitChar (n % 16) :: hexRevGo fuel (n / 16)

/-- Little-endian hexadecimal digits of a natural number, the recursion behind
Number.prototype.toString(16); zero yields the single digit 0. -/
def hexRev (n : Nat) : List Char := hexRevGo (n + 1) n

/-- Model of b.toString(16): big-endian lowercase hexadecimal digits. -/
def toHexChars (n : Nat) : List Char := (hexRev n).reverse

/-- Model of padStart(2, "0") on a digit string. -/
def padStart2 (l : List Char) : List Char :=
  List.replicate (2 - l.length) '0' ++ l

/-- Hexadecimal rendering of one digest byte, b.toString(16).padStart(2, "0"). -/
def byteToHex (b : Nat) : List Char := padStart2 (toHexChars b)

/-- Hex-encodes a digest: every byte rendered with byteToHex and joined. -/
def hexEncode (bytes : List Nat) : String :=
  String.mk (bytes.foldr (fun b acc => byteToHex b ++ acc) [])

/-- Splits a character list at every occurrence of a separator character, the
model of String.prototype.split with a one-character separator string. -/
def splitOnChar (sep : Char) : List Char → List (List Char)
  | [] => [[]]
  | c :: rest =>
    match splitOnChar sep rest with
    | [] => [[]]
    | h :: t => if c = sep then [] :: h :: t else (c :: h) :: t

/-- Removes whitespace from both ends, the model of String.prototype.trim. -/
def trimChars (l : List Char) : List Char :=
  ((l.dropWhile Char.isWhitespace).reverse.dropWhile Char.isWhitespace).reverse

/-- Model of part.split("=", 2) destructured into the first two segments, or
none when the separator is absent (the destructured v is then undefined). -/
def sigKV (part : List Char) : Option (List Char × List Char) :=
  match splitOnChar '=' part with
  | k :: v :: _ => some (k, v)
  | _ => none

/-- Parses a Stripe signature header into the timestamp and v1 candidates,
following the loop of verifyStripeSignature: parts are comma-separated and
trimmed, pairs with a missing or empty key or value are skipped, a later t
overwrites an earlier one and every v1 value is accumulated in order. -/
def parseSigHeader (h : String) : Option String × List String :=
  ((splitOnChar ',' h.data).map trimChars).foldl
    (fun acc part =>
      match sigKV part with
      | none => acc
      | some (k, v) =>
        if k = [] ∨ v = [] then acc
        else if k = ['t'] then (some (String.mk v), acc.2)
        else if k = ['v', '1'] then (acc.1, acc.2 ++ [String.mk v])
        else acc)
    (none, [])

/-- Model of verifyStripeSignature.  The HMAC-SHA256 primitive
(crypto.subtle.sign) is an opaque parameter taking the secret key and the
signed payload to the digest bytes; a null or empty header, a missing
timestamp or an empty candidate list short-circuit to false, and otherwise
the hex digest of the timestamped payload is compared with every candidate
through timingSafeEqual. -/
def verifyStripeSignature (hmac : String → String → List Nat)
    (rawBody : String) (sigHeader : Option String) (secret : String) : Bool :=
  match sigHeader with
  | none => false
  | some h =>
    if h = "" then false
    else
      match (parseSigHeader h).1 with
      | none => false
      | some ts =>
        if (parseSigHeader h).2.isEmpty then false
        else
          let computed := hexEncode (hmac secret (ts ++ "." ++ rawBody))
          (parseSigHeader h).2.any (fun cand => timingSafeEqual computed cand)

/-- C1: the verifier accepts exactly when the header is present and parses to
a timestamp t together with at least one v1 candidate equal to the lowercase
hex encoding of HMAC-SHA256(secret, t "." rawBody); a missing header, missing
t, empty candidate list or no matching candidate give false, and the function
is total, so it never throws. -/
theorem C1_verify_iff_matching_candidate (hmac : String → String → List Nat)
    (rawBody : String) (sigHeader : Option String) (secret : String) :
    (verifyStripeSignature hmac rawBody sigHeader secret = true ↔
      ∃ h ts, sigHeader = some h ∧ (parseSigHeader h).1 = some ts ∧
        hexEncode (hmac secret (ts ++ "." ++ rawBody)) ∈ (parseSigHeader h).2)
    ∧ verifyStripeSignature hmac rawBody none secret = false := by
  refine ⟨?_, rfl⟩
  cases sigHeader with
  | none =>
    simp [verifyStripeSignature]
  | some h =>
    simp only [verifyStripeSignature, Option.some.injEq]
    by_cases hempty : h = ""
    · subst hempty
      have hparse : (parseSigHeader "").1 = none := by decide
      simp only [if_pos rfl]
      constructor
      · intro hfalse
        exact absurd hfalse (by simp)
      · rintro ⟨h', ts, rfl, hts, -⟩
        rw [hparse] at hts
        exact absurd hts (by simp)
    · simp only [if_neg hempty]
      cases hts : (parseSigHeader h).1 with
      | none =>
        constructor
        · intro hfalse
          exact absurd hfalse (by simp)
        · rintro ⟨h', ts, rfl, hts', -⟩
          rw [hts] at hts'
          exact absurd hts' (by simp)
      | some ts =>
        by_cases hv : (parseSigHeader h).2.isEmpty
        · simp only [hv, if_true]
          constructor
          · intro hfalse
            exact absurd hfalse (by simp)
          · rintro ⟨h', ts', rfl, hts', hmem⟩
            rw [List.isEmpty_iff] at hv
            rw [hv] at hmem
            exact absurd hmem (by simp)
        · simp only [hv, Bool.false_eq_true, if_false, List.any_eq_true]
          constructor
          · rintro ⟨cand, hmem, heq⟩
            rw [timingSafeEqual_iff] at heq
            exact ⟨h, ts, rfl, hts, heq ▸ hmem⟩
          · rintro ⟨h', ts', rfl, hts', hmem⟩
            rw [hts] at hts'
            injection hts' with hts''
            subst hts''
            exact ⟨_, hmem, (timingSafeEqual_iff _ _).2 rfl⟩

/-- C4: the comparison is constant-time — for equal lengths the loop inspects
every character position (the comparison count equals the common length and
the boolean result agrees with plain string equality), unequal lengths give
false after zero character comparisons, and the comparison count is a
function of the two lengths alone. -/
theorem C4_timingSafeEqual_constant_time (a b : String) :
    (a.length = b.length →
      tseComparisons a b = a.length ∧ (timingSafeEqual a b = true ↔ a = b))
    ∧ (a.length ≠ b.length → timingSafeEqual a b = false ∧ tseComparisons a b = 0)
    ∧ (∀ a' b' : String, a'.length = a.length → b'.length = b.length →
        tseComparisons a' b' = tseComparisons a b) := by
  have hcomp : ∀ x y : String,
      tseComparisons x y = if x.length = y.length then min x.length y.length else 0 := by
    intro x y
    unfold tseComparisons
    by_cases hxy : x.length = y.length
    · simp [bne, hxy, tseLoop_snd]
    · have : (x.length != y.length) = true := by simpa [bne] using hxy
      simp [this, hxy]
  refine ⟨?_, ?_, ?_⟩
  · intro hlen
    refine ⟨?_, timingSafeEqual_iff a b⟩
    rw [hcomp, if_pos hlen, hlen, Nat.min_self]
  · intro hlen
    constructor
    · unfold timingSafeEqual
      have : (a.length != b.length) = true := by simpa [bne] using hlen
      simp [this]
    · rw [hcomp, if_neg hlen]
  · intro a' b' ha hb
    rw [hcomp, hcomp, ha, hb]

/-- C4, instantiated: two equal-length strings are fully scanned, and a pair
of different lengths is rejected without any character comparison. -/
theorem C4_witness :
    tseComparisons ("ab") ("cd") = ("ab" : String).length ∧
    timingSafeEqual ("ab") ("c") = false ∧ tseComparisons ("ab") ("c") = 0 := by
  refine ⟨((C4_timingSafeEqual_constant_time ("ab") ("cd")).1 (by decide)).1, ?_, ?_⟩
  · exact ((C4_timingSafeEqual_constant_time ("ab") ("c")).2.1 (by decide)).1
  · exact ((C4_timingSafeEqual_constant_time ("ab") ("c")).2.1 (by decide)).2

/-! ## Decimal digits and list joining helpers -/

/-- Fuelled digit loop of natToChars; the fuel always suffices at call
sites, as the fuel-irrelevance lemma below makes precise. -/
def natToCharsGo (fuel n : Nat) : List Char :=
  match fuel with
  | 0 => []
  | fuel + 1 =>
    if n < 10 then [Char.ofNat (48 + n)]
    else natToCharsGo fuel (n / 10) ++ [Char.ofNat (48 + n % 10)]

/-- Big-endian decimal digits of a natural number, the standard numeral. -/
def natToChars (n : Nat) : List Char := natToCharsGo (n + 1) n

theorem natToCharsGo_fuel {fuel fuel' n : Nat} (h : n < fuel) (h' : n < fuel') :
    natToCharsGo fuel n = natToCharsGo fuel' n := by
  induction fuel generalizing fuel' n with
  | zero => omega
  | succ fuel ih =>
    cases fuel' with
    | zero => omega
    | succ fuel' =>
      simp only [natToCharsGo]
      by_cases h10 : n < 10
      · simp [h10]
      · simp only [h10, if_false]
        have hlt : n / 10 < n := Nat.div_lt_self (by omega) (by omega)
        have hdiv : n / 10 < fuel := by omega
        have hdiv' : n / 10 < fuel' := by omega
        rw [ih hdiv hdiv']

/-- Unfolding recurrence of natToChars. -/
theorem natToChars_eq (n : Nat) :
    natToChars n = if n < 10 then [Char.ofNat (48 + n)]
      else natToChars (n / 10) ++ [Char.ofNat (48 + n % 10)] := by
  unfold natToChars
  simp only [natToCharsGo]
  by_cases h10 : n < 10
  · simp [h10]
  · simp only [h10, if_false]
    have hdiv : n / 10 < n := Nat.div_lt_self (by omega) (by omega)
    have hfuel : natToCharsGo n (n / 10) = natToCharsGo (n / 10 + 1) (n / 10) :=
      natToCharsGo_fuel (by omega) (by omega)
    rw [hfuel]
    simp only [natToCharsGo]

/-- Decimal numeral of an integer, with a leading minus sign if negative. -/
def intToChars (i : Int) : List Char :=
  if i < 0 then '-' :: natToChars i.natAbs else natToChars i.toNat

/-- Decimal numeral of a natural number as a string. -/
def natStr (n : Nat) : String := String.mk (natToChars n)

/-- Joins character lists with a single separator character, the model of
Array.prototype.join with a one-character separator. -/
def joinChar (sep : Char) : List (List Char) → List Char
  | [] => []
  | [p] => p
  | p :: ps => p ++ sep :: joinChar sep ps

/-! ## Provider form encoder (encodeStripeForm) -/

/-- JSON-like values accepted by the Stripe form encoder: the
StripeFormValue union of scalars, undefined, arrays and records. -/
inductive FormValue where
  | str (s : String)
  | num (q : ℚ)
  | bool (b : Bool)
  | null
  | undef
  | arr (elems : List FormValue)
  | obj (fields : List (String × FormValue))

/-- Decimal rendering of a JavaScript number.  The encoder is only ever fed
integral values by this code base; integers render exactly, and the
non-integral fallback (JS shortest-roundtrip float formatting, outside the
model) marks the fraction explicitly. -/
def ratToString (q : ℚ) : String :=
  if q.den = 1 then String.mk (intToChars q.num)
  else String.mk (intToChars q.num ++ '/' :: natToChars q.den)

mutual

/-- Model of the walk closure of encodeStripeForm: scalars append one
key-value pair (String(value)), null and undefined append nothing, arrays
recurse with the element index appended in bracket notation, and records
recurse with the child key in bracket notation (bare at the empty root). -/
def formWalk : String → FormValue → List (String × String)
  | pre, .str s => [(pre, s)]
  | pre, .num q => [(pre, ratToString q)]
  | pre, .bool b => [(pre, if b then ("true") else ("false"))]
  | _, .null => []
  | _, .undef => []
  | pre, .arr elems => formWalkArr pre 0 elems
  | pre, .obj fields => formWalkObj pre fields

/-- Array branch of the walk: value.forEach((entry, index) => ...). -/
def formWalkArr : String → Nat → List FormValue → List (String × String)
  | _, _, [] => []
  | pre, i, v :: vs =>
    formWalk (pre ++ ("[") ++ natStr i ++ ("]")) v ++ formWalkArr pre (i + 1) vs

/-- Record branch of the walk over Object.entries in order. -/
def formWalkObj : String → List (String × FormValue) → List (String × String)
  | _, [] => []
  | pre, (k, v) :: fs =>
    formWalk (if pre = "" then k else pre ++ ("[") ++ k ++ ("]")) v ++ formWalkObj pre fs

end

/-- UTF-8 bytes of one character. -/
def utf8Bytes (c : Char) : List Nat :=
  let n := c.toNat
  if n < 0x80 then [n]
  else if n < 0x800 then [0xC0 + n / 64, 0x80 + n % 64]
  else if n < 0x10000 then [0xE0 + n / 4096, 0x80 + n / 64 % 64, 0x80 + n % 64]
  else [0xF0 + n / 262144, 0x80 + n / 4096 % 64, 0x80 + n / 64 % 64, 0x80 + n % 64]

/-- Uppercase hexadecimal digit character for a value below 16. -/
def hexDigitUpper (n : Nat) : Char :=
  if n < 10 then Char.ofNat (48 + n) else Char.ofNat (55 + n)

/-- Bytes the application/x-www-form-urlencoded serializer leaves verbatim:
ASCII alphanumerics and * - . _ . -/
def isFormSafeByte (b : Nat) : Bool :=
  decide ((48 ≤ b ∧ b ≤ 57) ∨ (65 ≤ b ∧ b ≤ 90) ∨ (97 ≤ b ∧ b ≤ 122) ∨
    b = 42 ∨ b = 45 ∨ b = 46 ∨ b = 95)

/-- Percent-encoding of one byte in the urlencoded serializer: space becomes
a plus sign, safe bytes stay, everything else is %XX with uppercase hex. -/
def formEncodeByte (b : Nat) : List Char :=
  if b = 32 then ['+']
  else if isFormSafeByte b then [Char.ofNat b]
  else ['%', hexDigitUpper (b / 16), hexDigitUpper (b % 16)]

/-- Urlencoded escaping of one component string, over its UTF-8 bytes. -/
def formEncodeString (s : String) : List Char :=
  (s.data.foldr (fun c acc => utf8Bytes c ++ acc) []).foldr
    (fun b acc => formEncodeByte b ++ acc) []

/-- Model of URLSearchParams.toString on the appended pairs. -/
def urlParamsToString (pairs : List (String × String)) : String :=
  String.mk (joinChar '&'
    (pairs.map fun p => formEncodeString p.1 ++ '=' :: formEncodeString p.2))

/-- Model of encodeStripeForm: walks every top-level entry with its bare key
as prefix (the empty root prefix of the record branch produces exactly
that) and serializes the collected pairs as URLSearchParams does. -/
def encodeStripeForm (data : List (String × FormValue)) : String :=
  urlParamsToString (formWalkObj "" data)

theorem formWalkArr_append_null (pre : String) (vs ws : List FormValue) (i : Nat) :
    formWalkArr pre i (vs ++ FormValue.null :: ws) =
      formWalkArr pre i vs ++ formWalkArr pre (i + vs.length + 1) ws := by
  induction vs generalizing i with
  | nil => simp [formWalkArr, formWalk]
  | cons v vs ih =>
    simp only [List.cons_append, formWalkArr, List.length_cons, List.append_eq]
    rw [ih (i + 1)]
    have harith : i + 1 + vs.length + 1 = i + (vs.length + 1) + 1 := by omega
    rw [harith]
    simp [List.append_assoc]

/-- C8: the worked example encodes to a%5Bb%5D%5B0%5D=1&a%5Bb%5D%5B1%5D=x;
null and undefined values are omitted entirely at any depth (their walk
appends no pair, and dropping a null array element leaves every later
element's emitted index at its original position), records walk into bracket
notation, and array elements are keyed by original index. -/
theorem C8_encodeStripeForm_example (pre : String) (vs ws : List FormValue)
    (fs : List (String × FormValue)) :
    encodeStripeForm
        [(("a"), .obj [(("b"), .arr [.num 1, .str ("x"), .null])])] =
      ("a%5Bb%5D%5B0%5D=1&a%5Bb%5D%5B1%5D=x")
    ∧ formWalk pre .null = [] ∧ formWalk pre .undef = []
    ∧ (∀ i, formWalkArr pre i (vs ++ FormValue.null :: ws) =
        formWalkArr pre i vs ++ formWalkArr pre (i + vs.length + 1) ws)
    ∧ (∀ k v, formWalkObj pre ((k, v) :: fs) =
        formWalk (if pre = "" then k else pre ++ ("[") ++ k ++ ("]")) v ++ formWalkObj pre fs)
    ∧ (∀ i v, formWalkArr pre i (v :: vs) =
        formWalk (pre ++ ("[") ++ natStr i ++ ("]")) v ++ formWalkArr pre (i + 1) vs) := by
  refine ⟨by decide, rfl, rfl, fun i => formWalkArr_append_null pre vs ws i, ?_, ?_⟩
  · intro k v
    simp [formWalkObj]
  · intro i v
    simp [formWalkArr]

/-! ## Client cart (src/lib/cart.ts): isSameConfiguredItem and addItem -/

/-- Option pair of a configured cart item. -/
structure CartOption where
  code : String
  value : String
deriving DecidableEq

/-- Cart line of src/lib/cart.ts; price and qty are JavaScript numbers,
modelled as rationals. -/
structure CartItem where
  id : String
  productSlug : String
  productName : String
  baseSku : Option String
  partNumber : String
  price : ℚ
  qty : ℚ
  options : List CartOption
  notes : Option String
  createdAt : String
deriving DecidableEq

/-- Incoming item of addItem, Omit CartItem id and createdAt. -/
structure CartItemDraft where
  productSlug : String
  productName : String
  baseSku : Option String
  partNumber : String
  price : ℚ
  qty : ℚ
  options : List CartOption
  notes : Option String
deriving DecidableEq

/-- Index loop of isSameConfiguredItem over existing.options: each position
compares code and value, a missing incoming entry fails the comparison. -/
def optionsLoopEq : List CartOption → List CartOption → Bool
  | a :: as, b :: bs =>
    if a.code = b.code ∧ a.value = b.value then optionsLoopEq as bs else false
  | [], _ => true
  | _, [] => false

/-- Model of isSameConfiguredItem: part numbers equal, notes equal after
defaulting an absent notes field to the empty string, option lists of equal
length and element-wise equal by code and value. -/
def isSameConfiguredItem (existing : CartItem) (incoming : CartItemDraft) : Bool :=
  if existing.partNumber ≠ incoming.partNumber then false
  else if existing.notes.getD "" ≠ incoming.notes.getD "" then false
  else if existing.options.length ≠ incoming.options.length then false
  else optionsLoopEq existing.options incoming.options

/-- New cart line built by addItem from the draft, a fresh id and the
current timestamp. -/
def newCartItem (draft : CartItemDraft) (newId now : String) : CartItem :=
  { id := newId
    productSlug := draft.productSlug
    productName := draft.productName
    baseSku := draft.baseSku
    partNumber := draft.partNumber
    price := draft.price
    qty := draft.qty
    options := draft.options
    notes := draft.notes
    createdAt := now }

/-- Model of state.items.find combined with the in-place qty increment: the
first matching line absorbs the draft quantity, or none when no line
matches. -/
def bumpQtyFirst (draft : CartItemDraft) : List CartItem → Option (List CartItem)
  | [] => none
  | it :: rest =>
    if isSameConfiguredItem it draft then
      some ({ it with qty := it.qty + draft.qty } :: rest)
    else
      (bumpQtyFirst draft rest).map (fun r => it :: r)

/-- Model of addItem: accumulate into the first line with the same
configuration, otherwise push a fresh line and re-sort by creation
timestamp (localeCompare modelled as lexicographic string order). -/
def addItem (state : List CartItem) (draft : CartItemDraft) (newId now : String) :
    List CartItem :=
  match bumpQtyFirst draft state with
  | some items => items
  | none =>
    (state ++ [newCartItem draft newId now]).mergeSort
      (fun a b => a.createdAt ≤ b.createdAt)

theorem optionsLoopEq_iff {as bs : List CartOption} (h : as.length = bs.length) :
    optionsLoopEq as bs = true ↔ as = bs := by
  induction as generalizing bs with
  | nil =>
    cases bs with
    | nil => simp [optionsLoopEq]
    | cons b bs => simp at h
  | cons a as ih =>
    cases bs with
    | nil => simp at h
    | cons b bs =>
      simp only [List.length_cons, Nat.add_right_cancel_iff] at h
      simp only [optionsLoopEq]
      by_cases hab : a.code = b.code ∧ a.value = b.value
      · rw [if_pos hab, ih h]
        cases a
        cases b
        simp only [CartOption.mk.injEq, List.cons.injEq]
        obtain ⟨h1, h2⟩ := hab
        simp_all
      · rw [if_neg hab]
        constructor
        · intro hfalse
          cases hfalse
        · rintro h'
          injection h' with h1 h2
          subst h1
          exact absurd ⟨rfl, rfl⟩ hab

theorem isSameConfiguredItem_iff (e : CartItem) (i : CartItemDraft) :
    isSameConfiguredItem e i = true ↔
      (e.partNumber = i.partNumber ∧ e.notes.getD "" = i.notes.getD "" ∧
        e.options = i.options) := by
  unfold isSameConfiguredItem
  by_cases h1 : e.partNumber = i.partNumber
  · by_cases h2 : e.notes.getD "" = i.notes.getD ""
    · by_cases h3 : e.options.length = i.options.length
      · simp only [h1, h2, h3, ne_eq, not_true_eq_false, if_false]
        rw [optionsLoopEq_iff h3]
        simp [h1, h2]
      · simp only [h1, h2, h3, ne_eq, not_true_eq_false, if_false, not_false_eq_true,
          if_true]
        constructor
        · intro hfalse
          cases hfalse
        · rintro ⟨-, -, hopt⟩
          exact absurd (congrArg List.length hopt) h3
    · simp only [h1, h2, ne_eq, not_true_eq_false, if_false, not_false_eq_true, if_true]
      constructor
      · intro hfalse
        cases hfalse
      · rintro ⟨-, hn, -⟩
        exact hn.elim
  · simp only [h1, ne_eq, not_false_eq_true, if_true]
    constructor
    · intro hfalse
      cases hfalse
    · rintro ⟨hp, -, -⟩
      exact hp.elim

theorem bumpQtyFirst_eq_none {draft : CartItemDraft} {l : List CartItem} :
    bumpQtyFirst draft l = none ↔ ∀ x ∈ l, isSameConfiguredItem x draft = false := by
  induction l with
  | nil => simp [bumpQtyFirst]
  | cons it rest ih =>
    simp only [bumpQtyFirst]
    by_cases h : isSameConfiguredItem it draft = true
    · simp [h]
    · have h' : isSameConfiguredItem it draft = false := by
        cases hval : isSameConfiguredItem it draft
        · rfl
        · exact absurd hval h
      simp [h', ih]

theorem bumpQtyFirst_eq_some {draft : CartItemDraft} {l r : List CartItem}
    (h : bumpQtyFirst draft l = some r) :
    ∃ p it s, l = p ++ it :: s ∧ (∀ x ∈ p, isSameConfiguredItem x draft = false) ∧
      isSameConfiguredItem it draft = true ∧
      r = p ++ { it with qty := it.qty + draft.qty } :: s := by
  induction l generalizing r with
  | nil => simp [bumpQtyFirst] at h
  | cons it rest ih =>
    simp only [bumpQtyFirst] at h
    by_cases hm : isSameConfiguredItem it draft = true
    · rw [if_pos hm] at h
      injection h with h
      exact ⟨[], it, rest, rfl, by simp, hm, h.symm⟩
    · rw [if_neg hm] at h
      cases hb : bumpQtyFirst draft rest with
      | none => rw [hb] at h; cases h
      | some r' =>
        rw [hb] at h
        injection h with h
        obtain ⟨p, it', s, hl, hp, hit, hr⟩ := ih hb
        refine ⟨it :: p, it', s, by simp [hl], ?_, hit, ?_⟩
        · intro x hx
          rcases List.mem_cons.1 hx with rfl | hx'
          · cases hval : isSameConfiguredItem x draft
            · rfl
            · exact absurd hval hm
          · exact hp x hx'
        · rw [← h, hr]
          simp

/-- C9: addItem accumulates quantity into the first existing line exactly
when the source equality predicate holds — equal part number, equal notes
after defaulting absent notes to the empty string, and element-wise equal
options in order — and otherwise appends a fresh distinct line (under a
monotone creation clock and an already sorted cart, the final sort keeps it
at the end). -/
theorem C9_addItem_accumulates_iff_same_config (state : List CartItem)
    (draft : CartItemDraft) (newId now : String) :
    (∀ e i, isSameConfiguredItem e i = true ↔
      (e.partNumber = i.partNumber ∧ e.notes.getD "" = i.notes.getD "" ∧
        e.options = i.options))
    ∧ ((∃ it ∈ state, isSameConfiguredItem it draft = true) →
        ∃ p it s, state = p ++ it :: s ∧
          (∀ x ∈ p, isSameConfiguredItem x draft = false) ∧
          isSameConfiguredItem it draft = true ∧
          addItem state draft newId now = p ++ { it with qty := it.qty + draft.qty } :: s)
    ∧ ((∀ it ∈ state, isSameConfiguredItem it draft = false) →
        state.Pairwise (fun a b => a.createdAt ≤ b.createdAt) →
        (∀ it ∈ state, it.createdAt ≤ now) →
        addItem state draft newId now = state ++ [newCartItem draft newId now]) := by
  refine ⟨isSameConfiguredItem_iff, ?_, ?_⟩
  · rintro ⟨it0, hmem, hsame⟩
    cases hb : bumpQtyFirst draft state with
    | none =>
      rw [bumpQtyFirst_eq_none] at hb
      rw [hb it0 hmem] at hsame
      cases hsame
    | some r =>
      obtain ⟨p, it, s, hl, hp, hit, hr⟩ := bumpQtyFirst_eq_some hb
      refine ⟨p, it, s, hl, hp, hit, ?_⟩
      unfold addItem
      rw [hb, hr]
  · intro hnone hsorted hmono
    unfold addItem
    rw [bumpQtyFirst_eq_none.2 hnone]
    apply List.mergeSort_of_sorted
    rw [List.pairwise_append]
    refine ⟨hsorted.imp ?_, by simp, ?_⟩
    · intro a b hab
      simpa using hab
    · intro a ha b hb
      rcases List.mem_singleton.1 hb with rfl
      simpa [newCartItem] using hmono a ha

/-- C9, instantiated: a draft matching the single existing line accumulates
quantity in place, and a draft arriving in an empty cart is appended. -/
theorem C9_witness :
    (∃ p it s,
      [newCartItem ⟨("s"), ("n"), none, ("pn"), 5, 2, [], none⟩ ("id0") ("t0")] =
          p ++ it :: s ∧
        (∀ x ∈ p, isSameConfiguredItem x ⟨("s"), ("n"), none, ("pn"), 5, 3, [], none⟩ = false) ∧
        isSameConfiguredItem it ⟨("s"), ("n"), none, ("pn"), 5, 3, [], none⟩ = true ∧
        addItem [newCartItem ⟨("s"), ("n"), none, ("pn"), 5, 2, [], none⟩ ("id0") ("t0")]
            ⟨("s"), ("n"), none, ("pn"), 5, 3, [], none⟩ ("id1") ("t1") =
          p ++ { it with qty := it.qty + 3 } :: s)
    ∧ addItem [] ⟨("s"), ("n"), none, ("pn"), 5, 3, [], none⟩ ("id1") ("t1") =
        [newCartItem ⟨("s"), ("n"), none, ("pn"), 5, 3, [], none⟩ ("id1") ("t1")] := by
  constructor
  · exact (C9_addItem_accumulates_iff_same_config
      [newCartItem ⟨("s"), ("n"), none, ("pn"), 5, 2, [], none⟩ ("id0") ("t0")]
      ⟨("s"), ("n"), none, ("pn"), 5, 3, [], none⟩ ("id1") ("t1")).2.1
      ⟨newCartItem ⟨("s"), ("n"), none, ("pn"), 5, 2, [], none⟩ ("id0") ("t0"),
        by simp, by decide⟩
  · exact (C9_addItem_accumulates_iff_same_config []
      ⟨("s"), ("n"), none, ("pn"), 5, 3, [], none⟩ ("id1") ("t1")).2.2
      (by simp) (by simp) (by simp)

/-! ## Checkout session line items (description building, C10) -/

/-- Joins character lists with a separator list, Array.prototype.join. -/
def joinSep (sep : List Char) : List (List Char) → List Char
  | [] => []
  | [p] => p
  | p :: ps => p ++ sep ++ joinSep sep ps

/-- Validated request item of the checkout session endpoint.  Quantities and
unit prices are modelled as naturals: the validator requires qty at least 1
and a positive integral unitPriceCents. -/
structure CartItemInput where
  productName : String
  baseSku : Option String
  partNumber : String
  qty : Nat
  options : List CartOption
  unitPriceCents : Nat
  currency : String
  notes : Option String

/-- Description builder of the checkout session line items: the first four
option pairs render as code, colon, space, value and join with commas; a
Part segment always leads, Options and Notes segments append when nonempty,
segments join with a pipe and the result is capped at 500 characters. -/
def lineItemDescription (item : CartItemInput) : String :=
  let optionsDesc : List Char :=
    if item.options.length > 0 then
      joinSep ((", ").data)
        ((item.options.take 4).map fun o => o.code.data ++ ((": ").data) ++ o.value.data)
    else []
  let parts : List (List Char) :=
    [(("Part: ").data) ++ item.partNumber.data]
      ++ (if optionsDesc ≠ [] then [(("Options: ").data) ++ optionsDesc] else [])
      ++ (match item.notes with
          | some nts => if nts ≠ "" then [(("Notes: ").data) ++ nts.data] else []
          | none => [])
  String.mk ((joinSep ((" | ").data) parts).take 500)

/-- C10: a line-item description depends on the options only through their
first four pairs — the fifth pair onward is dropped before the
500-character cap, which the second conjunct shows is always in force. -/
theorem C10_description_first_four_options (item : CartItemInput) :
    lineItemDescription item =
      lineItemDescription { item with options := item.options.take 4 }
    ∧ (lineItemDescription item).length ≤ 500 := by
  constructor
  · unfold lineItemDescription
    have htake : (item.options.take 4).take 4 = item.options.take 4 := by
      simp [List.take_take]
    have hlen : (item.options.take 4).length > 0 ↔ item.options.length > 0 := by
      rw [List.length_take]
      omega
    simp only [htake]
    by_cases hpos : item.options.length > 0
    · rw [if_pos hpos, if_pos (hlen.2 hpos)]
    · rw [if_neg hpos, if_neg (fun h => hpos (hlen.1 h))]
  · have : ∀ l : List Char, (String.mk (l.take 500)).length ≤ 500 := by
      intro l
      show (l.take 500).length ≤ 500
      rw [List.length_take]
      omega
    exact this _

/-! ## JSON values, JSON.stringify and JSON.parse

The compact cart codec works through the runtime JSON primitives.  Json
models the parse results; the serializer follows JSON.stringify (compact
output, standard string escaping) and the parser follows the JSON grammar
accepted by JSON.parse.  Numbers carry exact rational values: every value
this code base serializes is a natural number, which both directions handle
exactly; JavaScript float formatting is outside the model. -/

inductive Json where
  | null
  | bool (b : Bool)
  | num (q : ℚ)
  | str (s : String)
  | arr (elems : List Json)
  | obj (fields : List (String × Json))

/-- Opening brace character. -/
def braceOpen : Char := Char.ofNat 123

/-- Closing brace character. -/
def braceClose : Char := Char.ofNat 125

/-- Decimal digit test. -/
def isDigitChar (c : Char) : Bool := decide (48 ≤ c.toNat ∧ c.toNat ≤ 57)

/-- Numeric value of a decimal digit character. -/
def digitVal (c : Char) : Nat := c.toNat - 48

/-- Value of a big-endian block of decimal digit characters. -/
def digitsToNat (ds : List Char) : Nat := ds.foldl (fun a c => 10 * a + digitVal c) 0

/-- JSON whitespace characters. -/
def isJsonWs (c : Char) : Bool := decide (c = ' ' ∨ c = '\t' ∨ c = '\n' ∨ c = '\r')

/-- Skips JSON whitespace. -/
def skipWs (l : List Char) : List Char := l.dropWhile isJsonWs

/-- JSON.stringify escaping of one string character: quote and backslash get
a backslash, the five named control escapes are used where they exist, any other
control character becomes a lowercase u-escape, everything else is verbatim. -/
def escChar (c : Char) : List Char :=
  if c = '"' then ['\\', '"']
  else if c = '\\' then ['\\', '\\']
  else if c = '\x08' then ['\\', 'b']
  else if c = '\t' then ['\\', 't']
  else if c = '\n' then ['\\', 'n']
  else if c = '\x0c' then ['\\', 'f']
  else if c = '\r' then ['\\', 'r']
  else if c.toNat < 32 then
    '\\' :: 'u' :: '0' :: '0' :: [hexDigitChar (c.toNat / 16), hexDigitChar (c.toNat % 16)]
  else [c]

/-- JSON.stringify escaping of a whole string body. -/
def escStr (l : List Char) : List Char := l.foldr (fun c acc => escChar c ++ acc) []

/-- Decimal serialization of a JSON number.  Integer values (the only
numbers this code base ever stringifies) render exactly; the non-integral
fallback marks the fraction explicitly and stands in for JavaScript float
formatting, which is outside the model. -/
def serNum (q : ℚ) : List Char :=
  if q.den = 1 then intToChars q.num
  else intToChars q.num ++ '/' :: natToChars q.den

mutual

/-- Model of JSON.stringify on a JSON value: compact rendering, keys in
insertion order. -/
def serJson : Json → List Char
  | .num q => serNum q
  | .str s => '"' :: escStr s.data ++ ['"']
  | .arr vs => '[' :: serElems vs ++ [']']
  | .obj fs => braceOpen :: serMembers fs ++ [braceClose]
  | .null => 'n' :: ['u', 'l', 'l']
  | .bool true => 't' :: ['r', 'u', 'e']
  | .bool false => 'f' :: ['a', 'l', 's', 'e']

/-- Comma-joined serialization of array elements. -/
def serElems : List Json → List Char
  | [] => []
  | [v] => serJson v
  | v :: vs => serJson v ++ ',' :: serElems vs

/-- Comma-joined serialization of object members, each a quoted escaped key,
a colon and the value. -/
def serMembers : List (String × Json) → List Char
  | [] => []
  | [kv] => '"' :: escStr kv.1.data ++ '"' :: ':' :: serJson kv.2
  | kv :: fs => ('"' :: escStr kv.1.data ++ '"' :: ':' :: serJson kv.2) ++ ',' :: serMembers fs

end

mutual

/-- Values in the image of the exact part of the serializer: all numbers are
nonnegative integers. -/
def serOk : Json → Bool
  | .null => true
  | .bool _ => true
  | .num q => decide (q.den = 1 ∧ 0 ≤ q.num)
  | .str _ => true
  | .arr vs => serOkList vs
  | .obj fs => serOkFields fs

/-- serOk on every array element. -/
def serOkList : List Json → Bool
  | [] => true
  | v :: vs => serOk v && serOkList vs

/-- serOk on every object member value. -/
def serOkFields : List (String × Json) → Bool
  | [] => true
  | kv :: fs => serOk kv.2 && serOkFields fs

end

/-- Numeric value of a hexadecimal digit character, either case. -/
def hexVal (c : Char) : Option Nat :=
  if 48 ≤ c.toNat ∧ c.toNat ≤ 57 then some (c.toNat - 48)
  else if 97 ≤ c.toNat ∧ c.toNat ≤ 102 then some (c.toNat - 87)
  else if 65 ≤ c.toNat ∧ c.toNat ≤ 70 then some (c.toNat - 55)
  else none

/-- Value of a four-digit hexadecimal escape. -/
def hexQuad (a b c d : Char) : Option Nat := do
  let x1 ← hexVal a
  let x2 ← hexVal b
  let x3 ← hexVal c
  let x4 ← hexVal d
  some (x1 * 4096 + x2 * 256 + x3 * 16 + x4)

/-- Backslash escapes of the JSON string grammar other than u-escapes. -/
def escUnmap (e : Char) : Option Char :=
  if e = '"' then some '"'
  else if e = '\\' then some '\\'
  else if e = '/' then some '/'
  else if e = 'b' then some '\x08'
  else if e = 'f' then some '\x0c'
  else if e = 'n' then some '\n'
  else if e = 'r' then some '\r'
  else if e = 't' then some '\t'
  else none

/-- Reads the four hexadecimal digits of a u-escape. -/
def parseUEsc (l : List Char) : Option (Nat × List Char) :=
  match l with
  | u1 :: u2 :: u3 :: u4 :: rest =>
    match hexQuad u1 u2 u3 u4 with
    | some n => some (n, rest)
    | none => none
  | _ => none

/-- Decodes one backslash escape of the JSON string grammar (the input
starts after the backslash).  u-escaped surrogate halves must pair up, as
Lean characters carry whole code points. -/
def parseEsc (l : List Char) : Option (Char × List Char) :=
  match l with
  | [] => none
  | e :: rest =>
    if e = 'u' then
      match parseUEsc rest with
      | none => none
      | some (n, rest2) =>
        if 55296 ≤ n ∧ n ≤ 56319 then
          match rest2 with
          | b1 :: u2 :: rest3 =>
            if b1 = '\\' ∧ u2 = 'u' then
              match parseUEsc rest3 with
              | none => none
              | some (m, rest4) =>
                if 56320 ≤ m ∧ m ≤ 57343 then
                  some (Char.ofNat (65536 + (n - 55296) * 1024 + (m - 56320)), rest4)
                else none
            else none
          | _ => none
        else if 56320 ≤ n ∧ n ≤ 57343 then none
        else some (Char.ofNat n, rest2)
    else
      match escUnmap e with
      | some ch => some (ch, rest)
      | none => none

/-- Parses a JSON string body after the opening quote, returning the decoded
characters and the input after the closing quote.  Unescaped control
characters are rejected as JSON.parse does.  Every step consumes input, so
the fuel the call sites pass (the input length plus one) always suffices. -/
def parseStrChars : Nat → List Char → Option (List Char × List Char)
  | 0, _ => none
  | fuel + 1, l =>
    match l with
    | [] => none
    | c :: rest =>
      if c = '"' then some ([], rest)
      else if c = '\\' then
        match parseEsc rest with
        | none => none
        | some (ch, rest2) =>
          match parseStrChars fuel rest2 with
          | some (cs, r) => some (ch :: cs, r)
          | none => none
      else if c.toNat < 32 then none
      else
        match parseStrChars fuel rest with
        | some (cs, r) => some (c :: cs, r)
        | none => none

/-- Integer part of a JSON number: a single zero, or a nonzero digit
followed by digits; a leading zero followed by a digit is rejected. -/
def parseIntPart (l : List Char) : Option (Nat × List Char) :=
  match l with
  | [] => none
  | c :: rest =>
    if c = '0' then
      match rest with
      | d :: _ => if isDigitChar d then none else some (0, rest)
      | [] => some (0, [])
    else if isDigitChar c then
      some (digitsToNat ((c :: rest).takeWhile isDigitChar),
        (c :: rest).dropWhile isDigitChar)
    else none

/-- Optional fraction part of a JSON number, as digit value and count. -/
def parseFracPart (l : List Char) : Option ((Nat × Nat) × List Char) :=
  match l with
  | [] => some ((0, 0), [])
  | c :: rest =>
    if c = '.' then
      let ds := rest.takeWhile isDigitChar
      if ds.isEmpty then none
      else some ((digitsToNat ds, ds.length), rest.dropWhile isDigitChar)
    else some ((0, 0), c :: rest)

/-- Optional exponent part of a JSON number. -/
def parseExpPart (l : List Char) : Option (Int × List Char) :=
  match l with
  | [] => some (0, [])
  | c :: rest =>
    if c = 'e' ∨ c = 'E' then
      let signAnd : Int × List Char :=
        match rest with
        | s :: rest2 =>
          if s = '-' then (-1, rest2) else if s = '+' then (1, rest2) else (1, rest)
        | [] => (1, [])
      let ds := signAnd.2.takeWhile isDigitChar
      if ds.isEmpty then none
      else some (signAnd.1 * digitsToNat ds, signAnd.2.dropWhile isDigitChar)
    else some (0, c :: rest)

/-- Parses a JSON number literal to its exact rational value; the value is
assembled as a decimal mantissa and a power-of-ten exponent, so integral
literals produce their value without rational normalization. -/
def parseNumber (l : List Char) : Option (ℚ × List Char) := do
  let start :=
    match l with
    | c :: rest => if c = '-' then (true, rest) else (false, l)
    | [] => (false, l)
  let (ip, l2) ← parseIntPart start.2
  let (fr, l3) ← parseFracPart l2
  let (ex, l4) ← parseExpPart l3
  let mantissa : Int :=
    if start.1 then -((ip * 10 ^ fr.2 + fr.1 : Nat) : Int) else ((ip * 10 ^ fr.2 + fr.1 : Nat) : Int)
  let e10 : Int := ex - (fr.2 : Int)
  some (if 0 ≤ e10 then ((mantissa * 10 ^ e10.toNat : Int) : ℚ)
    else (mantissa : ℚ) / ((10 ^ (-e10).toNat : Nat) : ℚ), l4)

mutual

/-- Fuelled model of JSON.parse on one value: whitespace, then dispatch on
the first character to a string, array, object, keyword or number. -/
def parseValue : Nat → List Char → Option (Json × List Char)
  | 0, _ => none
  | fuel + 1, l =>
    match skipWs l with
    | [] => none
    | c :: rest =>
      if c = '"' then
        match parseStrChars (rest.length + 1) rest with
        | some (cs, r) => some (.str (String.mk cs), r)
        | none => none
      else if c = '[' then
        if (skipWs rest).head? = some ']' then some (.arr [], (skipWs rest).tail)
        else
          match parseElems fuel rest with
          | some (vs, r) => some (.arr vs, r)
          | none => none
      else if c = braceOpen then
        if (skipWs rest).head? = some braceClose then some (.obj [], (skipWs rest).tail)
        else
          match parseMembers fuel rest with
          | some (fs, r) => some (.obj fs, r)
          | none => none
      else if c = 'n' then
        match rest with
        | 'u' :: 'l' :: 'l' :: r => some (.null, r)
        | _ => none
      else if c = 't' then
        match rest with
        | 'r' :: 'u' :: 'e' :: r => some (.bool true, r)
        | _ => none
      else if c = 'f' then
        match rest with
        | 'a' :: 'l' :: 's' :: 'e' :: r => some (.bool false, r)
        | _ => none
      else if c = '-' ∨ isDigitChar c then
        match parseNumber (c :: rest) with
        | some (q, r) => some (.num q, r)
        | none => none
      else none

/-- Fuelled loop over array elements after the opening bracket of a
non-empty array; consumes the closing bracket. -/
def parseElems : Nat → List Char → Option (List Json × List Char)
  | 0, _ => none
  | fuel + 1, l =>
    match parseValue fuel l with
    | none => none
    | some (v, r1) =>
      match skipWs r1 with
      | [] => none
      | c :: r2 =>
        if c = ',' then
          match parseElems fuel r2 with
          | some (vs, r3) => some (v :: vs, r3)
          | none => none
        else if c = ']' then some ([v], r2)
        else none

/-- Fuelled loop over object members after the opening brace of a non-empty
object; consumes the closing brace. -/
def parseMembers : Nat → List Char → Option (List (String × Json) × List Char)
  | 0, _ => none
  | fuel + 1, l =>
    match skipWs l with
    | [] => none
    | c :: rest =>
      if c = '"' then
        match parseStrChars (rest.length + 1) rest with
        | none => none
        | some (k, r1) =>
          match skipWs r1 with
          | [] => none
          | c2 :: r2 =>
            if c2 = ':' then
              match parseValue fuel r2 with
              | none => none
              | some (v, r3) =>
                match skipWs r3 with
                | [] => none
                | c3 :: r4 =>
                  if c3 = ',' then
                    match parseMembers fuel r4 with
                    | some (fs, r5) => some ((String.mk k, v) :: fs, r5)
                    | none => none
                  else if c3 = braceClose then some ([(String.mk k, v)], r4)
                  else none
            else none
      else none

end

/-- Model of JSON.parse: parse one value with ample fuel and require the
remainder to be whitespace only. -/
def parseJson (s : String) : Option Json :=
  match parseValue (s.data.length + 1) s.data with
  | some (v, rest) => if (skipWs rest).isEmpty then some v else none
  | none => none

/-- Characters that cannot continue a just-parsed integer literal. -/
def numBoundary : List Char → Bool
  | [] => true
  | c :: _ => decide (isDigitChar c = false ∧ c ≠ '.' ∧ c ≠ 'e' ∧ c ≠ 'E')

/-! ## Round trip of the serializer through the parser -/

theorem char_toNat_ofNat {n : Nat} (h : n < 55296) : (Char.ofNat n).toNat = n := by
  have hv : Nat.isValidChar n := Or.inl h
  unfold Char.ofNat
  rw [dif_pos hv]
  rfl

theorem char_eq_of_toNat_eq {c d : Char} (h : c.toNat = d.toNat) : c = d := by
  have := congrArg Char.ofNat h
  rwa [Char.ofNat_toNat, Char.ofNat_toNat] at this

theorem isDigitChar_digit {d : Nat} (h : d < 10) :
    isDigitChar (Char.ofNat (48 + d)) = true := by
  simp [isDigitChar, char_toNat_ofNat (by omega : 48 + d < 55296)]
  omega

theorem digitVal_digit {d : Nat} (h : d < 10) : digitVal (Char.ofNat (48 + d)) = d := by
  simp [digitVal, char_toNat_ofNat (by omega : 48 + d < 55296)]

theorem natToChars_ne_nil (n : Nat) : natToChars n ≠ [] := by
  rw [natToChars_eq]
  by_cases h : n < 10
  · simp [h]
  · simp [h]

theorem natToChars_all_digits (n : Nat) : ∀ c ∈ natToChars n, isDigitChar c = true := by
  induction n using Nat.strong_induction_on with
  | _ n ih =>
    rw [natToChars_eq]
    by_cases h : n < 10
    · simp only [h, if_true, List.mem_singleton]
      rintro c rfl
      exact isDigitChar_digit h
    · simp only [h, if_false, List.mem_append, List.mem_singleton]
      rintro c (hc | rfl)
      · exact ih (n / 10) (Nat.div_lt_self (by omega) (by omega)) c hc
      · exact isDigitChar_digit (Nat.mod_lt n (by omega))

theorem digitsToNat_append (ds : List Char) (c : Char) :
    digitsToNat (ds ++ [c]) = 10 * digitsToNat ds + digitVal c := by
  simp [digitsToNat, List.foldl_append]

theorem digitsToNat_natToChars (n : Nat) : digitsToNat (natToChars n) = n := by
  induction n using Nat.strong_induction_on with
  | _ n ih =>
    rw [natToChars_eq]
    by_cases h : n < 10
    · simp only [h, if_true]
      show 10 * 0 + digitVal (Char.ofNat (48 + n)) = n
      rw [digitVal_digit h]
      omega
    · simp only [h, if_false]
      rw [digitsToNat_append, ih (n / 10) (Nat.div_lt_self (by omega) (by omega)),
        digitVal_digit (Nat.mod_lt n (by omega))]
      omega

theorem natToChars_head_ne_zero {n : Nat} (hn : 1 ≤ n) {c : Char} {t : List Char}
    (h : natToChars n = c :: t) : c ≠ '0' := by
  induction n using Nat.strong_induction_on generalizing c t with
  | _ n ih =>
    rw [natToChars_eq] at h
    by_cases h10 : n < 10
    · rw [if_pos h10] at h
      injection h with h1 h2
      subst h1
      intro hc
      have hta := congrArg Char.toNat hc
      rw [char_toNat_ofNat (by omega)] at hta
      have h0 : ('0').toNat = 48 := by decide
      rw [h0] at hta
      omega
    · rw [if_neg h10] at h
      obtain ⟨c', t', hct⟩ : ∃ c' t', natToChars (n / 10) = c' :: t' := by
        cases hh : natToChars (n / 10) with
        | nil => exact absurd hh (natToChars_ne_nil _)
        | cons x xs => exact ⟨x, xs, rfl⟩
      rw [hct] at h
      simp only [List.cons_append] at h
      injection h with h1 h2
      subst h1
      exact ih (n / 10) (Nat.div_lt_self (by omega) (by omega)) (by omega) hct

theorem takeWhile_append_all {p : Char → Bool} {l r : List Char}
    (h : ∀ c ∈ l, p c = true) : (l ++ r).takeWhile p = l ++ r.takeWhile p := by
  induction l with
  | nil => simp
  | cons c cs ih =>
    simp only [List.cons_append, List.takeWhile_cons, h c (by simp), if_true]
    rw [ih fun x hx => h x (by simp [hx])]

theorem dropWhile_append_all {p : Char → Bool} {l r : List Char}
    (h : ∀ c ∈ l, p c = true) : (l ++ r).dropWhile p = r.dropWhile p := by
  induction l with
  | nil => simp
  | cons c cs ih =>
    simp only [List.cons_append, List.dropWhile_cons, h c (by simp), if_true]
    exact ih fun x hx => h x (by simp [hx])

theorem takeWhile_digits_boundary {r : List Char} (h : numBoundary r = true) :
    r.takeWhile isDigitChar = [] := by
  cases r with
  | nil => rfl
  | cons c t =>
    simp only [numBoundary, decide_eq_true_eq] at h
    simp [List.takeWhile_cons, h.1]

theorem dropWhile_digits_boundary {r : List Char} (h : numBoundary r = true) :
    r.dropWhile isDigitChar = r := by
  cases r with
  | nil => rfl
  | cons c t =>
    simp only [numBoundary, decide_eq_true_eq] at h
    simp [List.dropWhile_cons, h.1]

theorem parseIntPart_natToChars {n : Nat} {rest : List Char}
    (hb : numBoundary rest = true) :
    parseIntPart (natToChars n ++ rest) = some (n, rest) := by
  obtain ⟨c, t, hct⟩ : ∃ c t, natToChars n = c :: t := by
    cases hh : natToChars n with
    | nil => exact absurd hh (natToChars_ne_nil _)
    | cons x xs => exact ⟨x, xs, rfl⟩
  by_cases hz : n = 0
  · subst hz
    have h0 : natToChars 0 = ['0'] := by decide
    rw [h0]
    simp only [List.cons_append, List.nil_append, parseIntPart, if_pos rfl]
    cases rest with
    | nil => rfl
    | cons d r =>
      simp only [numBoundary, decide_eq_true_eq] at hb
      simp [hb.1]
  · have hne : c ≠ '0' := natToChars_head_ne_zero (by omega) hct
    have hdig : isDigitChar c = true := natToChars_all_digits n c (by simp [hct])
    rw [hct]
    simp only [List.cons_append, parseIntPart, if_neg hne, hdig, if_true]
    have hall : ∀ x ∈ natToChars n, isDigitChar x = true := natToChars_all_digits n
    have htake : (natToChars n ++ rest).takeWhile isDigitChar = natToChars n := by
      rw [takeWhile_append_all hall, takeWhile_digits_boundary hb, List.append_nil]
    have hdrop : (natToChars n ++ rest).dropWhile isDigitChar = rest := by
      rw [dropWhile_append_all hall, dropWhile_digits_boundary hb]
    rw [hct] at htake hdrop
    simp only [List.cons_append] at htake hdrop
    rw [htake, hdrop, ← hct, digitsToNat_natToChars]

theorem parseFracPart_boundary {l : List Char} (h : numBoundary l = true) :
    parseFracPart l = some ((0, 0), l) := by
  cases l with
  | nil => rfl
  | cons c t =>
    simp only [numBoundary, decide_eq_true_eq] at h
    simp [parseFracPart, h.2.1]

theorem parseExpPart_boundary {l : List Char} (h : numBoundary l = true) :
    parseExpPart l = some (0, l) := by
  cases l with
  | nil => rfl
  | cons c t =>
    simp only [numBoundary, decide_eq_true_eq] at h
    have : (c = 'e' ∨ c = 'E') = False := by
      simp [h.2.2.1, h.2.2.2]
    simp [parseExpPart, this]

theorem digit_head_facts {c : Char} (h : isDigitChar c = true) :
    c ≠ '-' ∧ c ≠ '"' ∧ c ≠ '[' ∧ c ≠ braceOpen ∧ c ≠ 'n' ∧ c ≠ 't' ∧ c ≠ 'f' ∧
      isJsonWs c = false ∧ c ≠ ']' ∧ c ≠ braceClose ∧ c ≠ ',' ∧ c ≠ ':' := by
  simp only [isDigitChar, decide_eq_true_eq] at h
  have hne : ∀ d : Char, d.toNat < 48 ∨ 57 < d.toNat → c ≠ d := by
    intro d hd he
    subst he
    omega
  refine ⟨hne _ (by decide), hne _ (by decide), hne _ (by decide), hne _ (by decide),
    hne _ (by decide), hne _ (by decide), hne _ (by decide), ?_, hne _ (by decide),
    hne _ (by decide), hne _ (by decide), hne _ (by decide)⟩
  simp only [isJsonWs, decide_eq_false_iff_not]
  rintro (rfl | rfl | rfl | rfl) <;> revert h <;> decide

theorem parseNumber_natToChars {n : Nat} {rest : List Char}
    (hb : numBoundary rest = true) :
    parseNumber (natToChars n ++ rest) = some ((n : ℚ), rest) := by
  obtain ⟨c, t, hct⟩ : ∃ c t, natToChars n = c :: t := by
    cases hh : natToChars n with
    | nil => exact absurd hh (natToChars_ne_nil _)
    | cons x xs => exact ⟨x, xs, rfl⟩
  have hdig : isDigitChar c = true := natToChars_all_digits n c (by simp [hct])
  have hstart : (natToChars n ++ rest) = c :: (t ++ rest) := by simp [hct]
  unfold parseNumber
  rw [hstart]
  simp only [if_neg (digit_head_facts hdig).1]
  rw [← hstart, parseIntPart_natToChars hb]
  simp only [Option.bind_eq_bind, Option.some_bind]
  rw [parseFracPart_boundary hb]
  simp only [Option.some_bind]
  rw [parseExpPart_boundary hb]
  simp only [Option.some_bind]
  norm_num

theorem hexVal_hexDigitChar : ∀ d : Nat, d < 16 → hexVal (hexDigitChar d) = some d := by
  decide

theorem skipWs_cons_not_ws {c : Char} {l : List Char} (h : isJsonWs c = false) :
    skipWs (c :: l) = c :: l := by
  simp [skipWs, List.dropWhile_cons, h]

theorem escStr_cons (c : Char) (cs : List Char) :
    escStr (c :: cs) = escChar c ++ escStr cs := rfl

theorem parseStrChars_escStr :
    ∀ (cs : List Char) (fuel : Nat) (rest : List Char), cs.length < fuel →
      parseStrChars fuel (escStr cs ++ '"' :: rest) = some (cs, rest) := by
  intro cs
  induction cs with
  | nil =>
    intro fuel rest hf
    cases fuel with
    | zero => omega
    | succ f =>
      show parseStrChars (f + 1) ('"' :: rest) = some ([], rest)
      simp [parseStrChars]
  | cons c cs ih =>
    intro fuel rest hf
    cases fuel with
    | zero => omega
    | succ f =>
      have hf' : cs.length < f := by
        simp only [List.length_cons] at hf
        omega
      have ihf := ih f rest hf'
      rw [escStr_cons, List.append_assoc]
      by_cases h1 : c = '"'
      · subst h1
        have he : escChar '"' = ['\\', '"'] := by decide
        rw [he]
        simp [parseStrChars, parseEsc, escUnmap, ihf]
      · by_cases h2 : c = '\\'
        · subst h2
          have he : escChar '\\' = ['\\', '\\'] := by decide
          rw [he]
          simp [parseStrChars, parseEsc, escUnmap, ihf]
        · by_cases h3 : c = '\x08'
          · subst h3
            have he : escChar '\x08' = ['\\', 'b'] := by decide
            rw [he]
            simp [parseStrChars, parseEsc, escUnmap, ihf]
          · by_cases h4 : c = '\t'
            · subst h4
              have he : escChar '\t' = ['\\', 't'] := by decide
              rw [he]
              simp [parseStrChars, parseEsc, escUnmap, ihf]
            · by_cases h5 : c = '\n'
              · subst h5
                have he : escChar '\n' = ['\\', 'n'] := by decide
                rw [he]
                simp [parseStrChars, parseEsc, escUnmap, ihf]
              · by_cases h6 : c = '\x0c'
                · subst h6
                  have he : escChar '\x0c' = ['\\', 'f'] := by decide
                  rw [he]
                  simp [parseStrChars, parseEsc, escUnmap, ihf]
                · by_cases h7 : c = '\r'
                  · subst h7
                    have he : escChar '\r' = ['\\', 'r'] := by decide
                    rw [he]
                    simp [parseStrChars, parseEsc, escUnmap, ihf]
                  · by_cases h8 : c.toNat < 32
                    · have he : escChar c = '\\' :: 'u' :: '0' :: '0' ::
                          [hexDigitChar (c.toNat / 16), hexDigitChar (c.toNat % 16)] := by
                        simp [escChar, h1, h2, h3, h4, h5, h6, h7, h8]
                      rw [he]
                      have hv1 : hexVal (hexDigitChar (c.toNat / 16)) = some (c.toNat / 16) :=
                        hexVal_hexDigitChar _ (by omega)
                      have hv2 : hexVal (hexDigitChar (c.toNat % 16)) = some (c.toNat % 16) :=
                        hexVal_hexDigitChar _ (by omega)
                      have hval : hexQuad '0' '0' (hexDigitChar (c.toNat / 16))
                          (hexDigitChar (c.toNat % 16)) = some c.toNat := by
                        have hz : hexVal '0' = some 0 := by decide
                        simp [hexQuad, hz, hv1, hv2]
                        omega
                      have hs1 : ¬(55296 ≤ c.toNat ∧ c.toNat ≤ 56319) := by omega
                      have hs2 : ¬(56320 ≤ c.toNat ∧ c.toNat ≤ 57343) := by omega
                      simp [parseStrChars, parseEsc, parseUEsc, hval, hs1, hs2, ihf,
                        Char.ofNat_toNat]
                    · have he : escChar c = [c] := by
                        simp [escChar, h1, h2, h3, h4, h5, h6, h7, h8]
                      rw [he]
                      show parseStrChars (f + 1) (c :: (escStr cs ++ '"' :: rest)) =
                        some (c :: cs, rest)
                      simp [parseStrChars, h1, h2, h8, ihf]

theorem serOk_num {q : ℚ} (h : serOk (Json.num q) = true) :
    serNum q = natToChars q.num.toNat := by
  simp only [serOk, decide_eq_true_eq] at h
  obtain ⟨hden, hnum⟩ := h
  unfold serNum intToChars
  rw [if_pos hden, if_neg (by omega : ¬q.num < 0)]

theorem serJson_head {v : Json} (h : serOk v = true) :
    ∃ c t, serJson v = c :: t ∧ isJsonWs c = false ∧ c ≠ ']' ∧ c ≠ ',' := by
  cases v with
  | null => exact ⟨'n', _, rfl, by decide⟩
  | bool b =>
    cases b
    · exact ⟨'f', _, rfl, by decide⟩
    · exact ⟨'t', _, rfl, by decide⟩
  | num q =>
    obtain ⟨c, t, hct⟩ : ∃ c t, natToChars q.num.toNat = c :: t := by
      cases hh : natToChars q.num.toNat with
      | nil => exact absurd hh (natToChars_ne_nil _)
      | cons x xs => exact ⟨x, xs, rfl⟩
    have hdig : isDigitChar c = true :=
      natToChars_all_digits _ c (by rw [hct]; exact List.mem_cons_self c t)
    have hfacts := digit_head_facts hdig
    exact ⟨c, t, by rw [show serJson (Json.num q) = serNum q from rfl, serOk_num h, hct],
      hfacts.2.2.2.2.2.2.2.1, hfacts.2.2.2.2.2.2.2.2.1, hfacts.2.2.2.2.2.2.2.2.2.2.1⟩
  | str s => exact ⟨'"', _, rfl, by decide⟩
  | arr vs => exact ⟨'[', _, rfl, by decide⟩
  | obj fs => exact ⟨braceOpen, _, rfl, by decide⟩

theorem escStr_length_ge (cs : List Char) : cs.length ≤ (escStr cs).length := by
  induction cs with
  | nil => simp [escStr]
  | cons c cs ih =>
    rw [escStr_cons]
    have hc : 1 ≤ (escChar c).length := by
      unfold escChar
      repeat' split
      all_goals simp
    simp only [List.length_append, List.length_cons]
    omega

theorem string_mk_data (s : String) : String.mk s.data = s := rfl

theorem rat_eq_toNat_cast {q : ℚ} (hden : q.den = 1) (hnum : 0 ≤ q.num) :
    (q.num.toNat : ℚ) = q := by
  have h1 := Rat.num_div_den q
  rw [hden] at h1
  push_cast at h1
  rw [div_one] at h1
  rw [← h1]
  norm_cast
  exact Int.toNat_of_nonneg hnum

theorem serElems_head {vs : List Json} (hne : vs ≠ []) (hok : serOkList vs = true) :
    ∃ c t, serElems vs = c :: t ∧ isJsonWs c = false ∧ c ≠ ']' := by
  cases vs with
  | nil => exact absurd rfl hne
  | cons v vs' =>
    have hv : serOk v = true := by
      cases vs' <;> simp only [serOkList, Bool.and_eq_true] at hok
      · exact hok.1
      · exact hok.1
    obtain ⟨c, t, hct, hws, hbr, -⟩ := serJson_head hv
    cases vs' with
    | nil => exact ⟨c, t, by simp [serElems, hct], hws, hbr⟩
    | cons w ws =>
      exact ⟨c, t ++ ',' :: serElems (w :: ws), by simp [serElems, hct], hws, hbr⟩

theorem serMembers_head {fs : List (String × Json)} (hne : fs ≠ []) :
    ∃ t, serMembers fs = '"' :: t := by
  cases fs with
  | nil => exact absurd rfl hne
  | cons kv fs' =>
    cases fs' with
    | nil =>
      exact ⟨escStr kv.1.data ++ '"' :: ':' :: serJson kv.2, by simp [serMembers]⟩
    | cons kv2 fs2 =>
      exact ⟨escStr kv.1.data ++ '"' ::
        ':' :: (serJson kv.2 ++ ',' :: serMembers (kv2 :: fs2)), by simp [serMembers]⟩

theorem parse_ser_aux : ∀ fuel : Nat,
    (∀ v rest, serOk v = true → (serJson v).length < fuel → numBoundary rest = true →
      parseValue fuel (serJson v ++ rest) = some (v, rest))
    ∧ (∀ vs rest, vs ≠ [] → serOkList vs = true → (serElems vs).length + 1 < fuel →
      parseElems fuel (serElems vs ++ ']' :: rest) = some (vs, rest))
    ∧ (∀ fs rest, fs ≠ [] → serOkFields fs = true → (serMembers fs).length + 1 < fuel →
      parseMembers fuel (serMembers fs ++ braceClose :: rest) = some (fs, rest)) := by
  intro fuel
  induction fuel with
  | zero =>
    refine ⟨fun v rest _ hlen _ => absurd hlen (by omega),
      fun vs rest _ _ hlen => absurd hlen (by omega),
      fun fs rest _ _ hlen => absurd hlen (by omega)⟩
  | succ fuel ih =>
    refine ⟨?_, ?_, ?_⟩
    · intro v rest hok hlen hb
      cases v with
      | null =>
        show parseValue (fuel + 1) ('n' :: 'u' :: 'l' :: 'l' :: rest) = some (.null, rest)
        simp only [parseValue, skipWs_cons_not_ws (by decide : isJsonWs 'n' = false)]
        rw [if_neg (by decide : ¬('n' : Char) = '"'), if_neg (by decide : ¬('n' : Char) = '['),
          if_neg (by decide : ¬('n' : Char) = braceOpen)]
        simp
      | bool b =>
        cases b with
        | false =>
          show parseValue (fuel + 1) ('f' :: 'a' :: 'l' :: 's' :: 'e' :: rest) =
            some (.bool false, rest)
          simp only [parseValue, skipWs_cons_not_ws (by decide : isJsonWs 'f' = false)]
          rw [if_neg (by decide : ¬('f' : Char) = '"'),
            if_neg (by decide : ¬('f' : Char) = '['),
            if_neg (by decide : ¬('f' : Char) = braceOpen)]
          simp
        | true =>
          show parseValue (fuel + 1) ('t' :: 'r' :: 'u' :: 'e' :: rest) =
            some (.bool true, rest)
          simp only [parseValue, skipWs_cons_not_ws (by decide : isJsonWs 't' = false)]
          rw [if_neg (by decide : ¬('t' : Char) = '"'),
            if_neg (by decide : ¬('t' : Char) = '['),
            if_neg (by decide : ¬('t' : Char) = braceOpen)]
          simp
      | num q =>
        have hok' : serOk (Json.num q) = true := hok
        simp only [serOk, decide_eq_true_eq] at hok'
        obtain ⟨hden, hnum⟩ := hok'
        have hser : serJson (Json.num q) = natToChars q.num.toNat := serOk_num hok
        rw [hser]
        obtain ⟨c, t, hct⟩ : ∃ c t, natToChars q.num.toNat = c :: t := by
          cases hh : natToChars q.num.toNat with
          | nil => exact absurd hh (natToChars_ne_nil _)
          | cons x xs => exact ⟨x, xs, rfl⟩
        have hdig : isDigitChar c = true :=
          natToChars_all_digits _ c (by rw [hct]; exact List.mem_cons_self c t)
        have hfacts := digit_head_facts hdig
        rw [hct]
        simp only [List.cons_append, parseValue,
          skipWs_cons_not_ws hfacts.2.2.2.2.2.2.2.1]
        rw [if_neg hfacts.2.1, if_neg hfacts.2.2.1, if_neg hfacts.2.2.2.1,
          if_neg hfacts.2.2.2.2.1, if_neg hfacts.2.2.2.2.2.1, if_neg hfacts.2.2.2.2.2.2.1,
          if_pos (Or.inr hdig)]
        rw [show c :: (t ++ rest) = natToChars q.num.toNat ++ rest by rw [hct]; simp]
        rw [parseNumber_natToChars hb]
        rw [rat_eq_toNat_cast hden hnum]
      | str s =>
        show parseValue (fuel + 1) (('"' :: escStr s.data ++ ['"']) ++ rest) =
          some (.str s, rest)
        rw [show ('"' :: escStr s.data ++ ['"']) ++ rest =
          '"' :: (escStr s.data ++ '"' :: rest) by simp]
        simp only [parseValue, skipWs_cons_not_ws (by decide : isJsonWs '"' = false)]
        simp only [if_true]
        have hfuel : s.data.length < (escStr s.data ++ '"' :: rest).length + 1 := by
          have := escStr_length_ge s.data
          simp only [List.length_append, List.length_cons]
          omega
        rw [parseStrChars_escStr s.data _ rest hfuel]
      | arr vs =>
        show parseValue (fuel + 1) (('[' :: serElems vs ++ [']']) ++ rest) =
          some (.arr vs, rest)
        rw [show ('[' :: serElems vs ++ [']']) ++ rest =
          '[' :: (serElems vs ++ ']' :: rest) by simp]
        simp only [parseValue, skipWs_cons_not_ws (by decide : isJsonWs '[' = false)]
        simp only [if_true]
        cases hvs : vs with
        | nil =>
          simp only [serElems, List.nil_append,
            skipWs_cons_not_ws (by decide : isJsonWs ']' = false)]
          simp
        | cons v vs' =>
          rw [← hvs]
          have hne : vs ≠ [] := by rw [hvs]; simp
          have hoklist : serOkList vs = true := hok
          obtain ⟨c, t, hct, hws, hbr⟩ := serElems_head hne hoklist
          rw [hct]
          simp only [List.cons_append, skipWs_cons_not_ws hws, List.head?_cons]
          have hlen' : (serElems vs).length + 1 < fuel := by
            have : serJson (Json.arr vs) = '[' :: serElems vs ++ [']'] := rfl
            rw [this] at hlen
            simp only [List.length_cons, List.length_append, List.length_singleton] at hlen
            omega
          rw [show c :: (t ++ ']' :: rest) = serElems vs ++ ']' :: rest by rw [hct]; simp]
          rw [(ih.2.1) vs rest hne hoklist hlen']
          simp [hbr]
      | obj fs =>
        show parseValue (fuel + 1) ((braceOpen :: serMembers fs ++ [braceClose]) ++ rest) =
          some (.obj fs, rest)
        rw [show (braceOpen :: serMembers fs ++ [braceClose]) ++ rest =
          braceOpen :: (serMembers fs ++ braceClose :: rest) by simp]
        simp only [parseValue, skipWs_cons_not_ws (by decide : isJsonWs braceOpen = false)]
        simp only [if_true]
        cases hfs : fs with
        | nil =>
          simp only [serMembers, List.nil_append,
            skipWs_cons_not_ws (by decide : isJsonWs braceClose = false)]
          simp [braceOpen, braceClose]
        | cons kv fs' =>
          rw [← hfs]
          have hne : fs ≠ [] := by rw [hfs]; simp
          have hokf : serOkFields fs = true := hok
          obtain ⟨t, hct⟩ := serMembers_head hne
          rw [hct]
          simp only [List.cons_append, skipWs_cons_not_ws (by decide : isJsonWs '"' = false),
            List.head?_cons]
          have hlen' : (serMembers fs).length + 1 < fuel := by
            have : serJson (Json.obj fs) = braceOpen :: serMembers fs ++ [braceClose] := rfl
            rw [this] at hlen
            simp only [List.length_cons, List.length_append, List.length_singleton] at hlen
            omega
          rw [show '"' :: (t ++ braceClose :: rest) = serMembers fs ++ braceClose :: rest by
            rw [hct]; simp]
          rw [(ih.2.2) fs rest hne hokf hlen']
          simp [braceClose, braceOpen]
    · intro vs rest hne hok hlen
      cases vs with
      | nil => exact absurd rfl hne
      | cons v vs' =>
        have hv : serOk v = true := by
          cases vs' <;> simp only [serOkList, Bool.and_eq_true] at hok
          · exact hok.1
          · exact hok.1
        cases vs' with
        | nil =>
          show parseElems (fuel + 1) (serJson v ++ ']' :: rest) = some ([v], rest)
          have hlenv : (serJson v).length < fuel := by
            simp only [serElems] at hlen
            omega
          simp only [parseElems]
          rw [(ih.1) v (']' :: rest) hv hlenv rfl]
          simp only [skipWs_cons_not_ws (by decide : isJsonWs ']' = false)]
          simp
        | cons w ws =>
          have hok' : serOkList (w :: ws) = true := by
            simp only [serOkList, Bool.and_eq_true] at hok ⊢
            exact hok.2
          show parseElems (fuel + 1)
            ((serJson v ++ ',' :: serElems (w :: ws)) ++ ']' :: rest) =
            some (v :: w :: ws, rest)
          rw [show (serJson v ++ ',' :: serElems (w :: ws)) ++ ']' :: rest =
            serJson v ++ ',' :: (serElems (w :: ws) ++ ']' :: rest) by simp]
          have hlenv : (serJson v).length < fuel := by
            simp only [serElems, List.length_append, List.length_cons] at hlen
            omega
          have hlenw : (serElems (w :: ws)).length + 1 < fuel := by
            simp only [serElems, List.length_append, List.length_cons] at hlen
            omega
          simp only [parseElems]
          rw [(ih.1) v (',' :: (serElems (w :: ws) ++ ']' :: rest)) hv hlenv rfl]
          simp only [skipWs_cons_not_ws (by decide : isJsonWs ',' = false)]
          simp only [if_true]
          rw [(ih.2.1) (w :: ws) rest (by simp) hok' hlenw]
    · intro fs rest hne hok hlen
      cases fs with
      | nil => exact absurd rfl hne
      | cons kv fs' =>
        obtain ⟨k, v⟩ := kv
        have hv : serOk v = true := by
          cases fs' <;> simp only [serOkFields, Bool.and_eq_true] at hok
          · exact hok.1
          · exact hok.1
        cases fs' with
        | nil =>
          show parseMembers (fuel + 1)
            (('"' :: escStr k.data ++ '"' :: ':' :: serJson v) ++ braceClose :: rest) =
            some ([(k, v)], rest)
          rw [show ('"' :: escStr k.data ++ '"' :: ':' :: serJson v) ++ braceClose :: rest =
            '"' :: (escStr k.data ++ '"' ::
              (':' :: (serJson v ++ braceClose :: rest))) by simp]
          simp only [parseMembers, skipWs_cons_not_ws (by decide : isJsonWs '"' = false)]
          simp only [if_true]
          have hfuel : k.data.length <
              (escStr k.data ++ '"' :: (':' :: (serJson v ++ braceClose :: rest))).length
                + 1 := by
            have := escStr_length_ge k.data
            simp only [List.length_append, List.length_cons]
            omega
          rw [parseStrChars_escStr k.data _ _ hfuel]
          simp only [skipWs_cons_not_ws (by decide : isJsonWs ':' = false)]
          simp only [if_true]
          have hlenv : (serJson v).length < fuel := by
            simp only [serMembers, List.length_cons, List.length_append] at hlen
            omega
          rw [(ih.1) v (braceClose :: rest) hv hlenv rfl]
          simp only [skipWs_cons_not_ws (by decide : isJsonWs braceClose = false)]
          simp [braceClose, string_mk_data]
        | cons kv2 fs2 =>
          have hok' : serOkFields (kv2 :: fs2) = true := by
            simp only [serOkFields, Bool.and_eq_true] at hok ⊢
            exact hok.2
          show parseMembers (fuel + 1)
            ((('"' :: escStr k.data ++ '"' :: ':' :: serJson v) ++
              ',' :: serMembers (kv2 :: fs2)) ++ braceClose :: rest) =
            some ((k, v) :: kv2 :: fs2, rest)
          rw [show (('"' :: escStr k.data ++ '"' :: ':' :: serJson v) ++
              ',' :: serMembers (kv2 :: fs2)) ++ braceClose :: rest =
            '"' :: (escStr k.data ++ '"' :: (':' :: (serJson v ++
              ',' :: (serMembers (kv2 :: fs2) ++ braceClose :: rest)))) by simp]
          simp only [parseMembers, skipWs_cons_not_ws (by decide : isJsonWs '"' = false)]
          simp only [if_true]
          have hfuel : k.data.length <
              (escStr k.data ++ '"' :: (':' :: (serJson v ++
                ',' :: (serMembers (kv2 :: fs2) ++ braceClose :: rest)))).length + 1 := by
            have := escStr_length_ge k.data
            simp only [List.length_append, List.length_cons]
            omega
          rw [parseStrChars_escStr k.data _ _ hfuel]
          simp only [skipWs_cons_not_ws (by decide : isJsonWs ':' = false)]
          simp only [if_true]
          have hlenv : (serJson v).length < fuel := by
            simp only [serMembers, List.length_cons, List.length_append] at hlen
            omega
          have hlenf : (serMembers (kv2 :: fs2)).length + 1 < fuel := by
            simp only [serMembers, List.length_cons, List.length_append] at hlen
            omega
          rw [(ih.1) v (',' :: (serMembers (kv2 :: fs2) ++ braceClose :: rest)) hv hlenv rfl]
          simp only [skipWs_cons_not_ws (by decide : isJsonWs ',' = false)]
          simp only [if_true]
          rw [(ih.2.2) (kv2 :: fs2) rest (by simp) hok' hlenf, string_mk_data]

/-- Round trip: parsing the serialization of a value whose numbers are
nonnegative integers returns exactly that value. -/
theorem parseJson_serJson {v : Json} (hok : serOk v = true) :
    parseJson (String.mk (serJson v)) = some v := by
  unfold parseJson
  show (match parseValue ((serJson v).length + 1) (serJson v) with
    | some (w, rest) => if (skipWs rest).isEmpty then some w else none
    | none => none) = some v
  have := (parse_ser_aux ((serJson v).length + 1)).1 v [] hok (by omega) rfl
  rw [List.append_nil] at this
  rw [this]
  simp [skipWs]

/-! ## Compact cart codec (buildCartCompactMetadata, parseCompactCart) -/

/-- Validated request body of the checkout session endpoint. -/
structure RequestBody where
  customerEmail : String
  items : List CartItemInput
  locale : Option String

/-- Flattened options of one item before the 200-character cap: code, colon,
value pairs joined by pipes. -/
def optChars (item : CartItemInput) : List Char :=
  joinChar '|' (item.options.map fun o => o.code.data ++ ':' :: o.value.data)

/-- JSON value of one compact cart item, keys in insertion order. -/
def compactItemJson (item : CartItemInput) : Json :=
  .obj [(("pn"), .str item.partNumber),
    (("q"), .num (item.qty : ℚ)),
    (("up"), .num (item.unitPriceCents : ℚ)),
    (("c"), .str item.currency),
    (("o"), .str (String.mk ((optChars item).take 200))),
    (("n"), .str item.productName)]

/-- JSON value of the whole compact cart. -/
def cartJson (rb : RequestBody) : Json :=
  .obj [(("email"), .str rb.customerEmail),
    (("items"), .arr (rb.items.map compactItemJson))]

/-- Model of buildCartCompactMetadata: the compact cart serialized to JSON;
above 4500 characters it is cut to the first 4490 plus a three-dot
ellipsis. -/
def buildCartCompactMetadata (rb : RequestBody) : String :=
  let compact := serJson (cartJson rb)
  if 4500 < compact.length then String.mk (compact.take 4490 ++ ['.', '.', '.'])
  else String.mk compact

/-- Values whose typeof is object and which are truthy: objects and arrays;
null is falsy, and scalars have a different typeof. -/
def jsTruthyObject : Json → Bool
  | .obj _ => true
  | .arr _ => true
  | _ => false

/-- Last-binding field lookup on a parsed JSON object, matching the
duplicate-key semantics of JSON.parse where the last occurrence wins. -/
def jsObjGet (fs : List (String × Json)) (key : String) : Option Json :=
  (fs.reverse.find? (fun kv => kv.1 == key)).map (fun kv => kv.2)

/-- Property access on a JSON value: only objects carry string fields;
missing fields and non-objects give undefined, modelled as none. -/
def jsField : Json → String → Option Json
  | .obj fs, k => jsObjGet fs k
  | _, _ => none

/-- Model of the raw cart_compact handling inside parseCompactCart: an
absent or falsy value (undefined, null, the empty string) or a non-string
yields null; otherwise the string is JSON.parsed and the result must be a
truthy object-like value. -/
def decodeCartCompact (raw : Option Json) : Option Json :=
  match raw with
  | none => none
  | some (.str s) =>
    if s = "" then none
    else
      match parseJson s with
      | some v => if jsTruthyObject v then some v else none
      | none => none
  | some _ => none

/-- Model of parseCompactCart on the metadata argument: metadata must be a
truthy object-like value, and its cart_compact field is decoded. -/
def parseCompactCart (metadata : Json) : Option Json :=
  if jsTruthyObject metadata then decodeCartCompact (jsField metadata ("cart_compact"))
  else none

/-- Model of the optionsPairs computation in the order projector: an empty
o yields no pairs, otherwise o splits on pipes and empty segments are
dropped by filter(Boolean). -/
def optionPairs (o : String) : List (List Char) :=
  if 0 < o.data.length then (splitOnChar '|' o.data).filter (fun p => p ≠ []) else []

/-- Model of the opt_ property loop: each pair is split by split(":", 2);
pairs missing either half or with an empty half are dropped. -/
def decodeOptions (o : String) : List (String × String) :=
  (optionPairs o).filterMap (fun pair =>
    match (splitOnChar ':' pair).take 2 with
    | [code, value] =>
      if code = [] ∨ value = [] then none else some (String.mk code, String.mk value)
    | _ => none)

/-- Shape-checked reading of one parsed compact item. -/
structure CompactItem where
  pn : String
  q : ℚ
  up : ℚ
  c : String
  o : String
  n : String

/-- Reads the compact item fields out of a parsed JSON object. -/
def readCompactItem (j : Json) : Option CompactItem :=
  match j with
  | .obj fs =>
    match jsObjGet fs ("pn"), jsObjGet fs ("q"), jsObjGet fs ("up"),
        jsObjGet fs ("c"), jsObjGet fs ("o"), jsObjGet fs ("n") with
    | some (.str pn), some (.num q), some (.num up), some (.str c),
        some (.str o), some (.str n) => some ⟨pn, q, up, c, o, n⟩
    | _, _, _, _, _, _ => none
  | _ => none

theorem serOk_compactItemJson (item : CartItemInput) :
    serOk (compactItemJson item) = true := by
  simp [compactItemJson, serOk, serOkFields, Rat.den_natCast, Rat.num_natCast]

theorem serOk_cartJson (rb : RequestBody) : serOk (cartJson rb) = true := by
  have hlist : serOkList (rb.items.map compactItemJson) = true := by
    induction rb.items with
    | nil => rfl
    | cons item items ih =>
      simp only [List.map_cons, serOkList, Bool.and_eq_true]
      exact ⟨serOk_compactItemJson item, ih⟩
  simp [cartJson, serOk, serOkFields, serOkList, hlist]

theorem splitOnChar_ne_nil (sep : Char) (l : List Char) : splitOnChar sep l ≠ [] := by
  cases l with
  | nil => simp [splitOnChar]
  | cons c rest =>
    simp only [splitOnChar]
    cases splitOnChar sep rest with
    | nil => simp
    | cons h t =>
      by_cases hc : c = sep <;> simp [hc]

theorem splitOnChar_not_mem {sep : Char} {l : List Char} (h : sep ∉ l) :
    splitOnChar sep l = [l] := by
  induction l with
  | nil => rfl
  | cons c rest ih =>
    simp only [List.mem_cons, not_or] at h
    simp only [splitOnChar, ih h.2]
    rw [if_neg (fun hc => h.1 (by rw [hc]))]

theorem splitOnChar_append_not_mem {sep : Char} {p l : List Char} {h0 : List Char}
    {t0 : List (List Char)} (hp : sep ∉ p) (hl : splitOnChar sep l = h0 :: t0) :
    splitOnChar sep (p ++ l) = (p ++ h0) :: t0 := by
  induction p with
  | nil => simpa using hl
  | cons c cs ih =>
    simp only [List.mem_cons, not_or] at hp
    simp only [List.cons_append, splitOnChar, List.append_eq]
    rw [ih hp.2]
    have hcs : ¬(c = sep) := fun hc => hp.1 hc.symm
    simp [hcs]

theorem splitOnChar_cons_sep (sep : Char) (t : List Char) :
    splitOnChar sep (sep :: t) = [] :: splitOnChar sep t := by
  simp only [splitOnChar]
  cases ht : splitOnChar sep t with
  | nil => exact absurd ht (splitOnChar_ne_nil sep t)
  | cons h t' => simp

theorem splitOnChar_joinChar {sep : Char} {parts : List (List Char)}
    (hne : parts ≠ []) (h : ∀ p ∈ parts, sep ∉ p) :
    splitOnChar sep (joinChar sep parts) = parts := by
  induction parts with
  | nil => exact absurd rfl hne
  | cons p ps ih =>
    cases ps with
    | nil =>
      show splitOnChar sep p = [p]
      exact splitOnChar_not_mem (h p (by simp))
    | cons p2 ps2 =>
      have hrec : splitOnChar sep (joinChar sep (p2 :: ps2)) = p2 :: ps2 :=
        ih (by simp) (fun x hx => h x (by simp [hx]))
      show splitOnChar sep (p ++ sep :: joinChar sep (p2 :: ps2)) = p :: p2 :: ps2
      have hsep : splitOnChar sep (sep :: joinChar sep (p2 :: ps2)) =
          [] :: p2 :: ps2 := by
        rw [splitOnChar_cons_sep, hrec]
      rw [splitOnChar_append_not_mem (h p (by simp)) hsep, List.append_nil]

theorem readCompactItem_compactItemJson (item : CartItemInput) :
    readCompactItem (compactItemJson item) =
      some ⟨item.partNumber, (item.qty : ℚ), (item.unitPriceCents : ℚ), item.currency,
        String.mk ((optChars item).take 200), item.productName⟩ := rfl

theorem decodeOptions_pairs (opts : List CartOption)
    (hsep : ∀ op ∈ opts, ':' ∉ op.code.data ∧ '|' ∉ op.code.data ∧
      ':' ∉ op.value.data ∧ '|' ∉ op.value.data) :
    (opts.map (fun o => o.code.data ++ ':' :: o.value.data)).filterMap (fun pair =>
      match (splitOnChar ':' pair).take 2 with
      | [code, value] =>
        if code = [] ∨ value = [] then none else some (String.mk code, String.mk value)
      | _ => none) =
    (opts.map fun o => (o.code, o.value)).filter
      (fun p => !(p.1 == "") && !(p.2 == "")) := by
  induction opts with
  | nil => rfl
  | cons op ops ih =>
    have hop := hsep op (by simp)
    have hops : ∀ x ∈ ops, ':' ∉ x.code.data ∧ '|' ∉ x.code.data ∧
        ':' ∉ x.value.data ∧ '|' ∉ x.value.data := fun x hx => hsep x (by simp [hx])
    have hsp : splitOnChar ':' (op.code.data ++ ':' :: op.value.data) =
        [op.code.data, op.value.data] := by
      have hv : splitOnChar ':' (':' :: op.value.data) = [[], op.value.data] := by
        rw [splitOnChar_cons_sep, splitOnChar_not_mem hop.2.2.1]
      rw [splitOnChar_append_not_mem hop.1 hv, List.append_nil]
    simp only [List.map_cons, List.filterMap_cons, List.filter_cons, hsp]
    rw [show ([op.code.data, op.value.data].take 2) = [op.code.data, op.value.data]
      from rfl]
    by_cases hc : op.code.data = [] ∨ op.value.data = []
    · have hcond : (!(op.code == "") && !(op.value == "")) = false := by
        rcases hc with hc | hc
        · have he : op.code = "" := String.ext hc
          simp [he]
        · have he : op.value = "" := String.ext hc
          simp [he]
      simp only [hc, if_true, hcond, Bool.false_eq_true, if_false]
      exact ih hops
    · push_neg at hc
      have h1 : op.code ≠ "" := fun he => hc.1 (by rw [he])
      have h2 : op.value ≠ "" := fun he => hc.2 (by rw [he])
      have hcond : (!(op.code == "") && !(op.value == "")) = true := by
        simp [h1, h2]
      have hcor : ¬(op.code.data = [] ∨ op.value.data = []) := by
        simp [hc.1, hc.2]
      simp only [hcor, if_false, hcond, if_true]
      rw [string_mk_data, string_mk_data, ih hops]

theorem decodeOptions_optChars (item : CartItemInput)
    (hcap : (optChars item).length ≤ 200)
    (hsep : ∀ op ∈ item.options, ':' ∉ op.code.data ∧ '|' ∉ op.code.data ∧
      ':' ∉ op.value.data ∧ '|' ∉ op.value.data) :
    decodeOptions (String.mk ((optChars item).take 200)) =
      (item.options.map fun o => (o.code, o.value)).filter
        (fun p => !(p.1 == "") && !(p.2 == "")) := by
  rw [List.take_of_length_le hcap]
  cases hopts : item.options with
  | nil =>
    have ho : optChars item = [] := by
      unfold optChars
      rw [hopts]
      rfl
    rw [ho]
    rfl
  | cons o os =>
    rw [← hopts]
    have hparts : ∀ p ∈ item.options.map (fun o => o.code.data ++ ':' :: o.value.data),
        '|' ∉ p := by
      intro p hp
      simp only [List.mem_map] at hp
      obtain ⟨op, hop, rfl⟩ := hp
      obtain ⟨-, h1, -, h2⟩ := hsep op hop
      simp only [List.mem_append, List.mem_cons, not_or]
      exact ⟨h1, by decide, h2⟩
    have hsplit : splitOnChar '|' (optChars item) =
        item.options.map (fun o => o.code.data ++ ':' :: o.value.data) := by
      unfold optChars
      exact splitOnChar_joinChar (by simp [hopts]) hparts
    have hlenpos : 0 < (optChars item).length := by
      unfold optChars
      rw [hopts]
      cases os with
      | nil => simp [joinChar]
      | cons o2 os2 => simp [joinChar]
    unfold decodeOptions optionPairs
    rw [show (String.mk (optChars item)).data = optChars item from rfl]
    rw [if_pos hlenpos, hsplit]
    have hfilter : (item.options.map fun o => o.code.data ++ ':' :: o.value.data).filter
        (fun p => p ≠ []) =
        item.options.map fun o => o.code.data ++ ':' :: o.value.data := by
      rw [List.filter_eq_self]
      intro a ha
      simp only [List.mem_map] at ha
      obtain ⟨op, -, rfl⟩ := ha
      simp
    rw [hfilter]
    exact decodeOptions_pairs item.options hsep

/-- C2 (amended): when the compact JSON stays within 4500 characters, each
item's joined options string is at most 200 characters and no option code
or value contains a colon or pipe, decoding the encoded token reconstructs
every item's pn, q, up and c exactly and the options order-preserved except
that pairs with an empty code or empty value are dropped. -/
theorem C2_roundtrip_amended (rb : RequestBody)
    (hlen : (serJson (cartJson rb)).length ≤ 4500)
    (hopts : ∀ item ∈ rb.items, (optChars item).length ≤ 200 ∧
      ∀ op ∈ item.options, ':' ∉ op.code.data ∧ '|' ∉ op.code.data ∧
        ':' ∉ op.value.data ∧ '|' ∉ op.value.data) :
    parseJson (buildCartCompactMetadata rb) = some (cartJson rb)
    ∧ (∀ item ∈ rb.items, readCompactItem (compactItemJson item) =
        some ⟨item.partNumber, (item.qty : ℚ), (item.unitPriceCents : ℚ), item.currency,
          String.mk ((optChars item).take 200), item.productName⟩)
    ∧ (∀ item ∈ rb.items,
        decodeOptions (String.mk ((optChars item).take 200)) =
          (item.options.map fun o => (o.code, o.value)).filter
            (fun p => !(p.1 == "") && !(p.2 == ""))) := by
  refine ⟨?_, fun item _ => readCompactItem_compactItemJson item,
    fun item hmem => decodeOptions_optChars item (hopts item hmem).1 (hopts item hmem).2⟩
  unfold buildCartCompactMetadata
  rw [if_neg (by omega)]
  exact parseJson_serJson (serOk_cartJson rb)

/-- Concrete counterexample input for the claim as stated: a single item
with one option whose value contains a colon. -/
def c2cex : RequestBody :=
  ⟨("e"), [⟨("x"), none, ("p"), 1, [⟨("a"), ("b:c")⟩], 1, ("EUR"), none⟩], none⟩

/-- C2, original statement refuted: the counterexample cart serializes well
below 4500 characters and decodes with pn, q, up and c intact, yet the
decoded option value is the part before the colon, while no pair of the
original options is empty, so nothing should have been dropped or
altered. -/
theorem C2_counterexample :
    (serJson (cartJson c2cex)).length ≤ 4500
    ∧ parseJson (buildCartCompactMetadata c2cex) = some (cartJson c2cex)
    ∧ (c2cex.items.map fun item => (readCompactItem (compactItemJson item)).map
        (fun it => decodeOptions it.o)) = [some [(("a"), ("b"))]]
    ∧ (c2cex.items.map fun item =>
        (item.options.map fun o => (o.code, o.value)).filter
          (fun p => !(p.1 == "") && !(p.2 == ""))) = [[(("a"), ("b:c"))]]
    ∧ (some [(("a"), ("b"))] : Option (List (String × String))) ≠
        some [(("a"), ("b:c"))] := by
  refine ⟨by decide, by rfl, by rfl, by rfl, by decide⟩

/-- C7: the compact cart decoder returns null for an absent raw value, for
any non-string raw value, for a string that fails to parse and for a string
parsing to a non-object; being a total function, it never throws. -/
theorem C7_decode_null_cases :
    decodeCartCompact none = none
    ∧ (∀ v : Json, (∀ s, v ≠ Json.str s) → decodeCartCompact (some v) = none)
    ∧ (∀ s, parseJson s = none → decodeCartCompact (some (Json.str s)) = none)
    ∧ (∀ s v, parseJson s = some v → jsTruthyObject v = false →
        decodeCartCompact (some (Json.str s)) = none) := by
  refine ⟨rfl, ?_, ?_, ?_⟩
  · intro v hv
    cases v with
    | str s => exact absurd rfl (hv s)
    | null => rfl
    | bool b => rfl
    | num q => rfl
    | arr l => rfl
    | obj fs => rfl
  · intro s hs
    simp only [decodeCartCompact]
    by_cases he : s = ""
    · rw [if_pos he]
    · rw [if_neg he, hs]
  · intro s v hv ht
    simp only [decodeCartCompact]
    by_cases he : s = ""
    · rw [if_pos he]
    · rw [if_neg he, hv]
      simp [ht]

/-- C7, instantiated: a null metadata value, a numeric raw value, an
unparseable string and a string parsing to a number each decode to null. -/
theorem C7_witness :
    decodeCartCompact (some Json.null) = none
    ∧ decodeCartCompact (some (Json.str ("x"))) = none
    ∧ decodeCartCompact (some (Json.str ("5"))) = none := by
  refine ⟨C7_decode_null_cases.2.1 Json.null (fun s h => by cases h), ?_, ?_⟩
  · exact C7_decode_null_cases.2.2.1 ("x") (by rfl)
  · exact C7_decode_null_cases.2.2.2 ("5") (Json.num 5) (by rfl) (by rfl)

/-! ## Consumption lemmas: a successful parse leaves a suffix of its input,
and a parsed object consumes through its closing brace -/

theorem skipWs_suffix (l : List Char) : ∃ p, l = p ++ skipWs l :=
  ⟨l.takeWhile isJsonWs, (List.takeWhile_append_dropWhile _ _).symm⟩

theorem parseUEsc_suffix {l : List Char} {n : Nat} {rest : List Char}
    (h : parseUEsc l = some (n, rest)) : ∃ p, l = p ++ rest := by
  unfold parseUEsc at h
  split at h
  · rename_i a b c d rest'
    split at h
    · injection h with h'
      injection h' with h1 h2
      subst h2
      exact ⟨[a, b, c, d], rfl⟩
    · cases h
  · cases h

theorem parseEsc_suffix {l : List Char} {ch : Char} {rest : List Char}
    (h : parseEsc l = some (ch, rest)) : ∃ p, l = p ++ rest := by
  unfold parseEsc at h
  split at h
  · cases h
  · rename_i e rest0
    split at h
    · split at h
      · cases h
      · rename_i n rest2 hue
        obtain ⟨p, hp⟩ := parseUEsc_suffix hue
        split at h
        · split at h
          · rename_i b1 u2 rest3
            split at h
            · split at h
              · cases h
              · rename_i m rest4 hue2
                obtain ⟨p2, hp2⟩ := parseUEsc_suffix hue2
                split at h
                · injection h with h'
                  injection h' with h1 h2
                  subst h2
                  refine ⟨e :: p ++ b1 :: u2 :: p2, ?_⟩
                  rw [hp, hp2] at *
                  simp [hp2]
                · cases h
            · cases h
          · cases h
        · split at h
          · cases h
          · injection h with h'
            injection h' with h1 h2
            subst h2
            exact ⟨e :: p, by rw [hp]; rfl⟩
    · split at h
      · injection h with h'
        injection h' with h1 h2
        subst h2
        exact ⟨[e], rfl⟩
      · cases h

theorem parseStrChars_suffix : ∀ (fuel : Nat) {l cs rest : List Char},
    parseStrChars fuel l = some (cs, rest) → ∃ p, l = p ++ rest := by
  intro fuel
  induction fuel with
  | zero => intro l cs rest h; cases h
  | succ fuel ih =>
    intro l cs rest h
    unfold parseStrChars at h
    split at h
    · cases h
    · rename_i c rest0
      split at h
      · injection h with h'
        injection h' with h1 h2
        subst h2
        exact ⟨[c], rfl⟩
      · split at h
        · split at h
          · cases h
          · rename_i ch2 rest2 hesc
            obtain ⟨p, hp⟩ := parseEsc_suffix hesc
            split at h
            · rename_i cs2 r2 hrec
              obtain ⟨p2, hp2⟩ := ih hrec
              injection h with h'
              injection h' with h1 h2
              subst h2
              refine ⟨c :: p ++ p2, ?_⟩
              rw [hp, hp2]
              simp
            · cases h
        · split at h
          · cases h
          · split at h
            · rename_i cs2 r2 hrec
              obtain ⟨p2, hp2⟩ := ih hrec
              injection h with h'
              injection h' with h1 h2
              subst h2
              exact ⟨c :: p2, by rw [hp2]; rfl⟩
            · cases h

theorem parseIntPart_suffix {l : List Char} {n : Nat} {rest : List Char}
    (h : parseIntPart l = some (n, rest)) : ∃ p, l = p ++ rest := by
  unfold parseIntPart at h
  split at h
  · cases h
  · rename_i c rest0
    split at h
    · split at h
      · split at h
        · cases h
        · injection h with h'
          injection h' with h1 h2
          subst h2
          exact ⟨[c], rfl⟩
      · injection h with h'
        injection h' with h1 h2
        subst h2
        exact ⟨[c], by simp [*]⟩
    · split at h
      · injection h with h'
        injection h' with h1 h2
        subst h2
        exact ⟨(c :: rest0).takeWhile isDigitChar,
          (List.takeWhile_append_dropWhile _ _).symm⟩
      · cases h

theorem fracTail_suffix (l2 : List Char) {fr : Nat × Nat} {rest : List Char}
    (h : (if (l2.takeWhile isDigitChar).isEmpty then none
          else some ((digitsToNat (l2.takeWhile isDigitChar), (l2.takeWhile isDigitChar).length),
            l2.dropWhile isDigitChar)) = some (fr, rest)) :
    ∃ p, l2 = p ++ rest := by
  by_cases hds : (l2.takeWhile isDigitChar).isEmpty = true
  · rw [if_pos hds] at h
    cases h
  · rw [if_neg hds] at h
    injection h with h'
    have hr : l2.dropWhile isDigitChar = rest := congrArg Prod.snd h'
    rw [← hr]
    exact ⟨l2.takeWhile isDigitChar, (List.takeWhile_append_dropWhile _ _).symm⟩

theorem expTail_suffix (sgn : Int) (l2 : List Char) {ex : Int} {rest : List Char}
    (h : (if (l2.takeWhile isDigitChar).isEmpty then none
          else some (sgn * (digitsToNat (l2.takeWhile isDigitChar) : Int),
            l2.dropWhile isDigitChar)) = some (ex, rest)) :
    ∃ p, l2 = p ++ rest := by
  by_cases hds : (l2.takeWhile isDigitChar).isEmpty = true
  · rw [if_pos hds] at h
    cases h
  · rw [if_neg hds] at h
    injection h with h'
    have hr : l2.dropWhile isDigitChar = rest := congrArg Prod.snd h'
    rw [← hr]
    exact ⟨l2.takeWhile isDigitChar, (List.takeWhile_append_dropWhile _ _).symm⟩

theorem parseFracPart_suffix {l : List Char} {fr : Nat × Nat} {rest : List Char}
    (h : parseFracPart l = some (fr, rest)) : ∃ p, l = p ++ rest := by
  unfold parseFracPart at h
  split at h
  · injection h with h'
    exact ⟨[], congrArg Prod.snd h'⟩
  · rename_i c rest0
    split at h
    · obtain ⟨p, hp⟩ := fracTail_suffix rest0 h
      refine ⟨c :: p, ?_⟩
      rw [List.cons_append, ← hp]
    · injection h with h'
      exact ⟨[], congrArg Prod.snd h'⟩

theorem parseExpPart_suffix {l : List Char} {ex : Int} {rest : List Char}
    (h : parseExpPart l = some (ex, rest)) : ∃ p, l = p ++ rest := by
  unfold parseExpPart at h
  split at h
  · injection h with h'
    exact ⟨[], congrArg Prod.snd h'⟩
  · rename_i c rest0
    split at h
    · cases rest0 with
      | nil =>
        obtain ⟨p, hp⟩ := @expTail_suffix 1 [] ex rest h
        refine ⟨c :: p, ?_⟩
        rw [List.cons_append, ← hp]
      | cons s rest2 =>
        simp only [] at h
        by_cases hs : s = '-'
        · rw [if_pos hs] at h
          obtain ⟨p, hp⟩ := @expTail_suffix (-1) rest2 ex rest h
          refine ⟨c :: s :: p, ?_⟩
          rw [List.cons_append, List.cons_append, ← hp]
        · rw [if_neg hs] at h
          by_cases hs2 : s = '+'
          · rw [if_pos hs2] at h
            obtain ⟨p, hp⟩ := @expTail_suffix 1 rest2 ex rest h
            refine ⟨c :: s :: p, ?_⟩
            rw [List.cons_append, List.cons_append, ← hp]
          · rw [if_neg hs2] at h
            obtain ⟨p, hp⟩ := @expTail_suffix 1 (s :: rest2) ex rest h
            refine ⟨c :: p, ?_⟩
            rw [List.cons_append, ← hp]
    · injection h with h'
      exact ⟨[], congrArg Prod.snd h'⟩

theorem parseNumber_suffix {l : List Char} {q : ℚ} {rest : List Char}
    (h : parseNumber l = some (q, rest)) : ∃ p, l = p ++ rest := by
  unfold parseNumber at h
  simp only [Option.bind_eq_bind, Option.bind_eq_some] at h
  obtain ⟨⟨ip, l2⟩, hip, h⟩ := h
  obtain ⟨⟨fr, l3⟩, hfr, h⟩ := h
  obtain ⟨⟨ex, l4⟩, hex, h⟩ := h
  injection h with h'
  have hrest : l4 = rest := congrArg Prod.snd h'
  subst hrest
  have hstart : ∃ p0, l = p0 ++ (match l with
      | c :: rest0 => if c = '-' then (true, rest0) else (false, l)
      | [] => (false, l)).2 := by
    cases l with
    | nil => exact ⟨[], rfl⟩
    | cons c rest0 =>
      by_cases hc : c = '-'
      · simp only [if_pos hc]
        exact ⟨[c], rfl⟩
      · simp only [if_neg hc]
        exact ⟨[], rfl⟩
  obtain ⟨p0, hp0⟩ := hstart
  obtain ⟨p1, hp1⟩ := parseIntPart_suffix hip
  obtain ⟨p2, hp2⟩ := parseFracPart_suffix hfr
  obtain ⟨p3, hp3⟩ := parseExpPart_suffix hex
  have hp2a : l2 = p2 ++ l3 := hp2
  have hp3a : l3 = p3 ++ l4 := hp3
  refine ⟨p0 ++ p1 ++ p2 ++ p3, ?_⟩
  rw [hp0, hp1, hp2a, hp3a]
  simp

theorem parse_suffix_aux : ∀ fuel : Nat,
    (∀ {l : List Char} {v : Json} {rest : List Char},
      parseValue fuel l = some (v, rest) → ∃ p, l = p ++ rest)
    ∧ (∀ {l : List Char} {vs : List Json} {rest : List Char},
      parseElems fuel l = some (vs, rest) → ∃ p, l = p ++ rest)
    ∧ (∀ {l : List Char} {fs : List (String × Json)} {rest : List Char},
      parseMembers fuel l = some (fs, rest) → ∃ p, l = p ++ rest) := by
  intro fuel
  induction fuel with
  | zero =>
    refine ⟨?_, ?_, ?_⟩
    · intro l v rest h
      cases h
    · intro l vs rest h
      cases h
    · intro l fs rest h
      cases h
  | succ fuel ih =>
    obtain ⟨ihv, ihe, ihm⟩ := ih
    have hskip : ∀ l : List Char, ∃ p, l = p ++ skipWs l := skipWs_suffix
    refine ⟨?_, ?_, ?_⟩
    · intro l v rest h
      obtain ⟨pws, hws⟩ := hskip l
      unfold parseValue at h
      split at h
      · cases h
      · rename_i c rest0 heqsw
        rw [heqsw] at hws
        split at h
        · split at h
          · rename_i cs r hstr
            obtain ⟨p, hp⟩ := parseStrChars_suffix _ hstr
            injection h with h'
            injection h' with h1 h2
            subst h2
            exact ⟨pws ++ c :: p, by rw [hws, hp]; simp⟩
          · cases h
        · split at h
          · split at h
            · rename_i hhead
              injection h with h'
              injection h' with h1 h2
              obtain ⟨pws2, hws2⟩ := hskip rest0
              cases hsw2 : skipWs rest0 with
              | nil => rw [hsw2] at hhead; cases hhead
              | cons c2 t2 =>
                rw [hsw2] at hhead hws2
                rw [← h2]
                refine ⟨pws ++ c :: pws2 ++ [c2], ?_⟩
                rw [hws, hsw2, hws2]
                simp
            · split at h
              · rename_i vs r helems
                obtain ⟨p, hp⟩ := ihe helems
                injection h with h'
                injection h' with h1 h2
                subst h2
                exact ⟨pws ++ c :: p, by rw [hws, hp]; simp⟩
              · cases h
          · split at h
            · split at h
              · rename_i hhead
                injection h with h'
                injection h' with h1 h2
                obtain ⟨pws2, hws2⟩ := hskip rest0
                cases hsw2 : skipWs rest0 with
                | nil => rw [hsw2] at hhead; cases hhead
                | cons c2 t2 =>
                  rw [hsw2] at hhead hws2
                  rw [← h2]
                  refine ⟨pws ++ c :: pws2 ++ [c2], ?_⟩
                  rw [hws, hsw2, hws2]
                  simp
              · split at h
                · rename_i fs r hmem
                  obtain ⟨p, hp⟩ := ihm hmem
                  injection h with h'
                  injection h' with h1 h2
                  subst h2
                  exact ⟨pws ++ c :: p, by rw [hws, hp]; simp⟩
                · cases h
            · split at h
              · split at h
                · rename_i r heq
                  injection h with h'
                  injection h' with h1 h2
                  subst h2
                  exact ⟨pws ++ [c, 'u', 'l', 'l'], by rw [hws]; simp⟩
                · cases h
              · split at h
                · split at h
                  · rename_i r heq
                    injection h with h'
                    injection h' with h1 h2
                    subst h2
                    exact ⟨pws ++ [c, 'r', 'u', 'e'], by rw [hws]; simp⟩
                  · cases h
                · split at h
                  · split at h
                    · rename_i r heq
                      injection h with h'
                      injection h' with h1 h2
                      subst h2
                      exact ⟨pws ++ [c, 'a', 'l', 's', 'e'], by rw [hws]; simp⟩
                    · cases h
                  · split at h
                    · split at h
                      · rename_i qv r hnum
                        obtain ⟨p, hp⟩ := parseNumber_suffix hnum
                        injection h with h'
                        injection h' with h1 h2
                        subst h2
                        refine ⟨pws ++ p, ?_⟩
                        rw [hws, hp]
                        simp
                      · cases h
                    · cases h
    · intro l vs rest h
      unfold parseElems at h
      split at h
      · cases h
      · rename_i v r1 hval
        obtain ⟨p1, hp1⟩ := ihv hval
        obtain ⟨pws, hws⟩ := hskip r1
        split at h
        · cases h
        · rename_i c r2 heqsw
          rw [heqsw] at hws
          split at h
          · split at h
            · rename_i vs2 r3 helems
              obtain ⟨p2, hp2⟩ := ihe helems
              injection h with h'
              injection h' with h1 h2
              subst h2
              refine ⟨p1 ++ pws ++ c :: p2, ?_⟩
              rw [hp1, hws, hp2]
              simp
            · cases h
          · split at h
            · injection h with h'
              injection h' with h1 h2
              subst h2
              refine ⟨p1 ++ pws ++ [c], ?_⟩
              rw [hp1, hws]
              simp
            · cases h
    · intro l fs rest h
      unfold parseMembers at h
      split at h
      · cases h
      · rename_i c rest0 heqsw
        obtain ⟨pws, hws⟩ := hskip l
        rw [heqsw] at hws
        split at h
        · split at h
          · cases h
          · rename_i k r1 hstr
            obtain ⟨pk, hpk⟩ := parseStrChars_suffix _ hstr
            obtain ⟨pws2, hws2⟩ := hskip r1
            split at h
            · cases h
            · rename_i c2 r2 heqsw2
              rw [heqsw2] at hws2
              split at h
              · split at h
                · cases h
                · rename_i v r3 hval
                  obtain ⟨pv, hpv⟩ := ihv hval
                  obtain ⟨pws3, hws3⟩ := hskip r3
                  split at h
                  · cases h
                  · rename_i c3 r4 heqsw3
                    rw [heqsw3] at hws3
                    split at h
                    · split at h
                      · rename_i fs2 r5 hmem
                        obtain ⟨pm, hpm⟩ := ihm hmem
                        injection h with h'
                        injection h' with h1 h2
                        subst h2
                        refine ⟨pws ++ c :: pk ++ pws2 ++ c2 :: pv ++ pws3 ++ c3 :: pm, ?_⟩
                        rw [hws, hpk, hws2, hpv, hws3, hpm]
                        simp
                      · cases h
                    · split at h
                      · injection h with h'
                        injection h' with h1 h2
                        subst h2
                        refine ⟨pws ++ c :: pk ++ pws2 ++ c2 :: pv ++ pws3 ++ [c3], ?_⟩
                        rw [hws, hpk, hws2, hpv, hws3]
                        simp
                      · cases h
              · cases h
        · cases h

theorem parseMembers_brace : ∀ (fuel : Nat) {l : List Char}
    {fs : List (String × Json)} {rest : List Char},
    parseMembers fuel l = some (fs, rest) → ∃ p, l = p ++ braceClose :: rest := by
  intro fuel
  induction fuel with
  | zero => intro l fs rest h; cases h
  | succ fuel ih =>
    intro l fs rest h
    unfold parseMembers at h
    split at h
    · cases h
    · rename_i c rest0 heqsw
      obtain ⟨pws, hws⟩ := skipWs_suffix l
      rw [heqsw] at hws
      split at h
      · split at h
        · cases h
        · rename_i k r1 hstr
          obtain ⟨pk, hpk⟩ := parseStrChars_suffix _ hstr
          obtain ⟨pws2, hws2⟩ := skipWs_suffix r1
          split at h
          · cases h
          · rename_i c2 r2 heqsw2
            rw [heqsw2] at hws2
            split at h
            · split at h
              · cases h
              · rename_i v r3 hval
                obtain ⟨pv, hpv⟩ := (parse_suffix_aux fuel).1 hval
                obtain ⟨pws3, hws3⟩ := skipWs_suffix r3
                split at h
                · cases h
                · rename_i c3 r4 heqsw3
                  rw [heqsw3] at hws3
                  split at h
                  · split at h
                    · rename_i fs2 r5 hmem
                      obtain ⟨pm, hpm⟩ := ih hmem
                      injection h with h'
                      injection h' with h1 h2
                      subst h2
                      refine ⟨pws ++ c :: pk ++ pws2 ++ c2 :: pv ++ pws3 ++ c3 :: pm, ?_⟩
                      rw [hws, hpk, hws2, hpv, hws3, hpm]
                      simp
                    · cases h
                  · split at h
                    · rename_i hc3comma hc3brace
                      injection h with h'
                      injection h' with h1 h2
                      subst h2
                      refine ⟨pws ++ c :: pk ++ pws2 ++ c2 :: pv ++ pws3, ?_⟩
                      rw [hws, hpk, hws2, hpv, hws3, hc3brace]
                      simp
                    · cases h
            · cases h
      · cases h

/-- C2, amended claim instantiated at a concrete colon- and pipe-free cart:
the built metadata parses back to the cart serialization. -/
theorem C2_witness :
    parseJson (buildCartCompactMetadata
      ⟨("e"), [⟨("x"), none, ("p"), 1, [⟨("a"), ("b")⟩], 2, ("EUR"), none⟩], none⟩) =
    some (cartJson
      ⟨("e"), [⟨("x"), none, ("p"), 1, [⟨("a"), ("b")⟩], 2, ("EUR"), none⟩], none⟩) :=
  (C2_roundtrip_amended _ (by decide) (by decide)).1

/-! ## C3: truncated metadata has 4493 characters and fails to parse -/

theorem all_ws_of_skipWs_empty {l : List Char} (h : (skipWs l).isEmpty = true) :
    ∀ x ∈ l, isJsonWs x = true := by
  have h2 : l.dropWhile isJsonWs = [] := by
    cases hd : l.dropWhile isJsonWs with
    | nil => rfl
    | cons a t =>
      unfold skipWs at h
      rw [hd] at h
      cases h
  intro x hx
  exact List.dropWhile_eq_nil_iff.mp h2 x hx

theorem getLast_append_three (l : List Char) (a b c : Char) :
    (l ++ [a, b, c]).getLast? = some c := by
  rw [show l ++ [a, b, c] = (l ++ [a, b]) ++ c :: [] by simp]
  rw [List.getLast?_append_cons]
  rfl

theorem lastChar_brace_case (pre rest : List Char)
    (hws : (skipWs rest).isEmpty = true) :
    (pre ++ braceClose :: rest).getLast? = some braceClose
    ∨ ∃ c, (pre ++ braceClose :: rest).getLast? = some c ∧ isJsonWs c = true := by
  rw [List.getLast?_append_cons]
  cases rest with
  | nil => left; rfl
  | cons a t =>
    right
    have hall := all_ws_of_skipWs_empty hws
    have hne : (a :: t) ≠ ([] : List Char) := by simp
    refine ⟨(a :: t).getLast hne, ?_, ?_⟩
    · rw [List.getLast?_cons_cons]
      exact List.getLast?_eq_getLast_of_ne_nil hne
    · exact hall _ (List.getLast_mem hne)

/-- A string starting with an opening brace parses as JSON only if its last
character is the closing brace or whitespace. -/
theorem parseJson_obj_last {s : String} {v : Json} {tl : List Char}
    (hd : s.data = braceOpen :: tl)
    (hparse : parseJson s = some v) :
    s.data.getLast? = some braceClose
    ∨ ∃ c, s.data.getLast? = some c ∧ isJsonWs c = true := by
  unfold parseJson at hparse
  split at hparse
  · rename_i v0 rest hpv
    have hempty : (skipWs rest).isEmpty = true := by
      by_cases hb : (skipWs rest).isEmpty = true
      · exact hb
      · rw [if_neg hb] at hparse
        cases hparse
    have hwsb : isJsonWs braceOpen = false := by decide
    have hsw : skipWs s.data = braceOpen :: tl := by
      rw [hd]
      unfold skipWs
      rw [List.dropWhile_cons, hwsb]
      simp
    simp only [parseValue] at hpv
    rw [hsw] at hpv
    simp only [] at hpv
    rw [if_neg (by decide : ¬(braceOpen = '"')), if_neg (by decide : ¬(braceOpen = '[')),
      if_pos trivial] at hpv
    by_cases hhd : (skipWs tl).head? = some braceClose
    · rw [if_pos hhd] at hpv
      injection hpv with h'
      have hrest : (skipWs tl).tail = rest := congrArg Prod.snd h'
      cases hswt : skipWs tl with
      | nil =>
        rw [hswt] at hhd
        cases hhd
      | cons a t =>
        rw [hswt] at hhd hrest
        injection hhd with ha
        obtain ⟨pws2, hpw2⟩ := skipWs_suffix tl
        rw [hswt] at hpw2
        subst ha
        have ht : t = rest := hrest
        have hres := lastChar_brace_case (braceOpen :: pws2) t (by rw [ht]; exact hempty)
        rw [List.cons_append] at hres
        rw [hd, hpw2]
        exact hres
    · rw [if_neg hhd] at hpv
      split at hpv
      · rename_i fs r hmem
        injection hpv with h'
        have hrest : r = rest := congrArg Prod.snd h'
        obtain ⟨p, hp⟩ := parseMembers_brace _ hmem
        rw [hrest] at hp
        have hres := lastChar_brace_case (braceOpen :: p) rest hempty
        rw [List.cons_append] at hres
        rw [hd, hp]
        exact hres
      · cases hpv
  · cases hparse

/-- C3: above 4500 serialized characters the metadata builder outputs
exactly the first 4490 characters of the compact JSON followed by three
dots, 4493 characters in all, and the JSON.parse step of the decoder
rejects that truncated output, so parseCompactCart returns null rather
than throwing. -/
theorem C3_truncated_cart (rb : RequestBody)
    (hlen : 4500 < (serJson (cartJson rb)).length) :
    (buildCartCompactMetadata rb).data =
      (serJson (cartJson rb)).take 4490 ++ ['.', '.', '.']
    ∧ (buildCartCompactMetadata rb).length = 4493
    ∧ parseJson (buildCartCompactMetadata rb) = none := by
  have hout : buildCartCompactMetadata rb =
      String.mk ((serJson (cartJson rb)).take 4490 ++ ['.', '.', '.']) := by
    unfold buildCartCompactMetadata
    rw [if_pos hlen]
  refine ⟨by rw [hout], ?_, ?_⟩
  · rw [hout]
    show ((serJson (cartJson rb)).take 4490 ++ ['.', '.', '.']).length = 4493
    rw [List.length_append, List.length_take]
    simp
    omega
  · rw [hout]
    obtain ⟨Y, hY⟩ : ∃ Y, serJson (cartJson rb) = braceOpen :: Y := ⟨_, rfl⟩
    have hdata : (String.mk ((serJson (cartJson rb)).take 4490 ++ ['.', '.', '.'])).data
        = braceOpen :: (Y.take 4489 ++ ['.', '.', '.']) := by
      show (serJson (cartJson rb)).take 4490 ++ ['.', '.', '.']
        = braceOpen :: (Y.take 4489 ++ ['.', '.', '.'])
      rw [hY, show (4490 : Nat) = 4489 + 1 from rfl, List.take_succ_cons]
      rfl
    have hlast : (String.mk ((serJson (cartJson rb)).take 4490 ++
        ['.', '.', '.'])).data.getLast? = some ('.') := by
      rw [hdata, ← List.cons_append]
      exact getLast_append_three _ _ _ _
    cases hjp : parseJson (String.mk ((serJson (cartJson rb)).take 4490 ++ ['.', '.', '.'])) with
    | none => rfl
    | some v =>
      exfalso
      rcases parseJson_obj_last hdata hjp with hres | ⟨c, hc, hwsc⟩
      · rw [hlast] at hres
        injection hres with he
        exact absurd he (by decide)
      · rw [hlast] at hc
        injection hc with he
        rw [← he] at hwsc
        exact absurd hwsc (by decide)

/-- Escaping a run of safe characters is the identity. -/
theorem escStr_replicate_a (n : Nat) :
    escStr (List.replicate n 'a') = List.replicate n 'a' := by
  induction n with
  | zero => rfl
  | succ n ih =>
    rw [List.replicate_succ]
    show escChar 'a' ++ escStr (List.replicate n 'a') = 'a' :: List.replicate n 'a'
    rw [ih]
    rfl

/-- Length of the oversized witness cart, computed structurally so that no
4600-element list is ever evaluated. -/
theorem c3big_len :
    4500 < (serJson (cartJson ⟨String.mk (List.replicate 4600 'a'), [], none⟩)).length := by
  have hser : serJson (cartJson ⟨String.mk (List.replicate 4600 'a'), [], none⟩)
      = braceOpen :: (('"' :: escStr (String.data ("email")) ++ '"' :: ':' ::
          ('"' :: escStr (List.replicate 4600 'a') ++ ['"']))
        ++ ',' :: ('"' :: escStr (String.data ("items")) ++ '"' :: ':' ::
          ('[' :: serElems ([].map compactItemJson) ++ [']'])))
        ++ [braceClose] := rfl
  rw [hser, escStr_replicate_a,
    show escStr (String.data ("email")) = ['e', 'm', 'a', 'i', 'l'] from rfl,
    show escStr (String.data ("items")) = ['i', 't', 'e', 'm', 's'] from rfl,
    show serElems ([].map compactItemJson) = ([] : List Char) from rfl]
  simp only [List.length_cons, List.length_append, List.length_replicate,
    List.length_nil]
  omega

/-- C3, instantiated at a concrete oversized cart: a 4600-character email
pushes the serialization over 4500 characters. -/
theorem C3_witness :
    (buildCartCompactMetadata ⟨String.mk (List.replicate 4600 'a'), [], none⟩).length = 4493
    ∧ parseJson (buildCartCompactMetadata
        ⟨String.mk (List.replicate 4600 'a'), [], none⟩) = none := by
  obtain ⟨h1, h2, h3⟩ :=
    C3_truncated_cart ⟨String.mk (List.replicate 4600 'a'), [], none⟩ c3big_len
  exact ⟨h2, h3⟩

/-! ## Webhook handler model, C5 and C6 -/

/-- The event.type strict-equality check of the webhook handler: true
exactly for a string type field equal to the completed-checkout type. -/
def eventTypeCompleted (event : Json) : Bool :=
  match jsField event ("type") with
  | some (.str t) => t == ("checkout.session.completed")
  | _ => false

/-- The session object event.data.object read by the order projector; none
models the paths where the handler's try block throws before any Shopify
call: a missing or null data field, and a missing, undefined or null
session, whose customer_email access throws.  Scalar sessions survive the
property accesses with undefined results. -/
def sessionOf (event : Json) : Option Json :=
  match jsField event ("data") with
  | none => none
  | some d =>
    match jsField d ("object") with
    | none => none
    | some .null => none
    | some s => some s

/-- Items the order projector extracts: the compact cart is decoded by
parseCompactCart from session.metadata, defaulted to an empty object when
null or absent, and the cart's items field must be an array.  A missing
cart or items field yields no items; a non-array truthy items value either
fails the length check or makes the map throw, so no order call happens on
those paths either and they are modelled as carrying no items. -/
def eventOrderItems (event : Json) : List Json :=
  match sessionOf event with
  | none => []
  | some session =>
    let metadata := match jsField session ("metadata") with
      | none => Json.obj []
      | some .null => Json.obj []
      | some m => m
    match parseCompactCart metadata with
    | none => []
    | some cart =>
      match jsField cart ("items") with
      | some (.arr items) => items
      | _ => []

def jsIsNull : Json → Bool
  | .null => true
  | _ => false

/-- Whether the projector reaches the order POST: a nonempty items array
none of whose entries is null; a null entry makes the property access in
the line-items map throw before the POST, and that throw is caught by the
handler. -/
def orderCreateIssued (event : Json) : Bool :=
  !(eventOrderItems event).isEmpty && (eventOrderItems event).all (fun it => !jsIsNull it)

/-- Model of the webhook POST handler.  The HMAC primitive and the
STRIPE_WEBHOOK_SECRET configuration value are explicit parameters; getEnv
throws for a missing or empty value, answered with status 500.  The flags
customerFails and shopifyFails say whether the customer upsert and the
order POST fail; both failures are caught and logged inside the handler.
The result carries the HTTP response as status code and body text, whether
an order-create call was issued, whether an order was created, and whether
the created order carries a customer id. -/
def webhookPOST (hmac : String → String → List Nat) (webhookSecret : Option String)
    (rawBody : String) (sigHeader : Option String)
    (customerFails shopifyFails : Bool) : (Nat × String) × Bool × Bool × Bool :=
  match webhookSecret with
  | none => ((500, ("Webhook misconfigured")), false, false, false)
  | some secret =>
    if secret = "" then ((500, ("Webhook misconfigured")), false, false, false)
    else if verifyStripeSignature hmac rawBody sigHeader secret = false then
      ((400, ("Signature verification failed")), false, false, false)
    else
      match parseJson rawBody with
      | none => ((400, ("Invalid JSON")), false, false, false)
      | some event =>
        let issued := eventTypeCompleted event && orderCreateIssued event
        ((200, ("ok")), issued, issued && !shopifyFails, issued && !customerFails)

/-- C5: the webhook answers 500 Webhook misconfigured for a missing or
empty secret, 400 Signature verification failed when verification fails,
400 Invalid JSON when the verified body does not parse, 200 ok for every
verified parsed body, and the response never depends on the downstream
customer-upsert or order-creation failures, which are swallowed. -/
theorem C5_webhook_responses (hmac : String → String → List Nat)
    (rawBody : String) (sigHeader : Option String) (cf sf : Bool) :
    ((webhookPOST hmac none rawBody sigHeader cf sf).1 = (500, ("Webhook misconfigured")))
    ∧ ((webhookPOST hmac (some ("")) rawBody sigHeader cf sf).1 =
        (500, ("Webhook misconfigured")))
    ∧ (∀ secret, secret ≠ ("") →
        verifyStripeSignature hmac rawBody sigHeader secret = false →
        (webhookPOST hmac (some secret) rawBody sigHeader cf sf).1 =
          (400, ("Signature verification failed")))
    ∧ (∀ secret, secret ≠ ("") →
        verifyStripeSignature hmac rawBody sigHeader secret = true →
        parseJson rawBody = none →
        (webhookPOST hmac (some secret) rawBody sigHeader cf sf).1 = (400, ("Invalid JSON")))
    ∧ (∀ secret event, secret ≠ ("") →
        verifyStripeSignature hmac rawBody sigHeader secret = true →
        parseJson rawBody = some event →
        (webhookPOST hmac (some secret) rawBody sigHeader cf sf).1 = (200, ("ok")))
    ∧ (∀ cfg cf2 sf2, (webhookPOST hmac cfg rawBody sigHeader cf sf).1 =
        (webhookPOST hmac cfg rawBody sigHeader cf2 sf2).1) := by
  refine ⟨rfl, ?_, ?_, ?_, ?_, ?_⟩
  · simp [webhookPOST]
  · intro secret hs hv
    simp [webhookPOST, hs, hv]
  · intro secret hs hv hp
    simp [webhookPOST, hs, hv, hp]
  · intro secret event hs hv hp
    simp [webhookPOST, hs, hv, hp]
  · intro cfg cf2 sf2
    cases cfg with
    | none => rfl
    | some secret =>
      by_cases hsec : secret = ("")
      · simp [webhookPOST, hsec]
      · by_cases hv : verifyStripeSignature hmac rawBody sigHeader secret = false
        · simp [webhookPOST, hsec, hv]
        · cases hp : parseJson rawBody with
          | none => simp [webhookPOST, hsec, hv, hp]
          | some event => simp [webhookPOST, hsec, hv, hp]

/-- The constant HMAC primitive used to instantiate the webhook model. -/
def hmac0 : String → String → List Nat := fun _ _ => [0]

/-- C5, instantiated: a missing secret gives 500, a failing signature 400,
a verified but malformed body 400 Invalid JSON, and a verified JSON body
200 ok even when both downstream Shopify calls fail. -/
theorem C5_witness :
    (webhookPOST hmac0 none ("x") none false false).1 = (500, ("Webhook misconfigured"))
    ∧ (webhookPOST hmac0 (some ("s")) ("x") none false false).1 =
        (400, ("Signature verification failed"))
    ∧ (webhookPOST hmac0 (some ("s")) ("nope") (some ("t=1,v1=00")) false false).1 =
        (400, ("Invalid JSON"))
    ∧ (webhookPOST hmac0 (some ("s")) ("true") (some ("t=1,v1=00")) true true).1 =
        (200, ("ok")) := by
  refine ⟨(C5_webhook_responses hmac0 ("x") none false false).1,
    (C5_webhook_responses hmac0 ("x") none false false).2.2.1 ("s") (by decide) (by rfl),
    (C5_webhook_responses hmac0 ("nope") (some ("t=1,v1=00")) false false).2.2.2.1
      ("s") (by decide) (by rfl) (by rfl),
    (C5_webhook_responses hmac0 ("true") (some ("t=1,v1=00")) true true).2.2.2.2.1
      ("s") (Json.bool true) (by decide) (by rfl) (by rfl)⟩

/-- C6: an order-create call is issued only when the parsed event has the
completed-checkout type and the compact cart decoded from its session
metadata carries at least one item; any other event leaves the order
endpoint untouched. -/
theorem C6_order_gating (hmac : String → String → List Nat) (cfg : Option String)
    (rawBody : String) (sigHeader : Option String) (cf sf : Bool)
    (h : (webhookPOST hmac cfg rawBody sigHeader cf sf).2.1 = true) :
    ∃ event, parseJson rawBody = some event ∧ eventTypeCompleted event = true ∧
      eventOrderItems event ≠ [] := by
  unfold webhookPOST at h
  cases cfg with
  | none => cases h
  | some secret =>
    simp only [] at h
    by_cases hsec : secret = ("")
    · rw [if_pos hsec] at h
      cases h
    · rw [if_neg hsec] at h
      by_cases hv : verifyStripeSignature hmac rawBody sigHeader secret = false
      · rw [if_pos hv] at h
        cases h
      · rw [if_neg hv] at h
        cases hp : parseJson rawBody with
        | none =>
          rw [hp] at h
          cases h
        | some event =>
          rw [hp] at h
          have h2 : (eventTypeCompleted event && orderCreateIssued event) = true := h
          rw [Bool.and_eq_true] at h2
          obtain ⟨ht, hi⟩ := h2
          have hi2 : (!(eventOrderItems event).isEmpty
              && (eventOrderItems event).all (fun it => !jsIsNull it)) = true := hi
          rw [Bool.and_eq_true] at hi2
          have hne := hi2.1
          refine ⟨event, rfl, ht, ?_⟩
          intro hnil
          rw [hnil] at hne
          cases hne

/-- Concrete one-item compact cart metadata string for the C6 witness. -/
def c6cart : String :=
  String.mk (serJson (cartJson ⟨("e"), [⟨("x"), none, ("p"), 1, [], 2, ("EUR"), none⟩], none⟩))

/-- Concrete completed-checkout event carrying the compact cart. -/
def c6event : Json :=
  .obj [(("type"), .str ("checkout.session.completed")),
    (("data"), .obj [(("object"),
      .obj [(("id"), .str ("cs_1")), (("metadata"),
        .obj [(("cart_compact"), .str c6cart)])])])]

def c6body : String := String.mk (serJson c6event)

set_option maxRecDepth 40000 in
/-- C6, instantiated: a webhook run on a completed-checkout event with a
one-item cart issues the order call, so the gating conditions hold of the
parsed event. -/
theorem C6_witness :
    ∃ event, parseJson c6body = some event ∧ eventTypeCompleted event = true ∧
      eventOrderItems event ≠ [] :=
  C6_order_gating hmac0 (some ("s")) c6body (some ("t=1,v1=00")) false false (by rfl)

end RlsPoc
